import Mathlib

/-!
Verification of the price-resolution and target-evaluation pipeline of
`hocalarportfolyo.py` (a Streamlit dashboard joining a Google-Sheets table of
tickers and AVWAP targets with live prices fetched from yfinance).

Python strings are embedded as `List Char`; pandas/NumPy floats appearing in
price data are embedded as `PyFloatV` (a rational tagged finite, or one of the
non-finite sentinels NaN / +inf / -inf); missing table cells are `Option`s.
-/

namespace Hocalar

abbrev PyStr := List Char

/-- Whitespace for Python's `str.strip` / regex `\s` (ASCII classes plus the
non-breaking space, which Python's Unicode `\s` also matches). -/
def pyIsSpace (c : Char) : Bool :=
  c.toNat = 32 || c.toNat = 9 || c.toNat = 10 || c.toNat = 13 ||
    c.toNat = 11 || c.toNat = 12 || c.toNat = 160

/-- `str.strip()`: drop whitespace from both ends. -/
def pyStrip (v : PyStr) : PyStr :=
  ((v.dropWhile pyIsSpace).reverse.dropWhile pyIsSpace).reverse

/-- Python `s.rfind(c)`: index of the last occurrence of `c`, or `-1`. -/
def rfind (c : Char) : PyStr → Int
  | [] => -1
  | x :: xs =>
    let r := rfind c xs
    if r ≥ 0 then r + 1 else if x = c then 0 else -1

/-- `s.replace(a, "")` for a single character: remove every occurrence. -/
def removeAll (c : Char) (v : PyStr) : PyStr := v.filter (fun x => x ≠ c)

/-- `s.replace(a, b)` for single characters. -/
def replaceAll (a b : Char) (v : PyStr) : PyStr :=
  v.map (fun x => if x = a then b else x)

/-- Numeric value of a digit string (most significant first). -/
def natOfDigits (l : List Char) : ℕ :=
  l.foldl (fun acc c => 10 * acc + (c.toNat - 48)) 0

/-- Decimal components of a parsed float: sign, integer part, fraction digits
read as a natural number, and the number of fraction digits. -/
structure FloatParts where
  neg : Bool
  ip : ℕ
  fp : ℕ
  fl : ℕ
deriving DecidableEq, Repr

/-- The rational denoted by decimal components. -/
def FloatParts.val (p : FloatParts) : ℚ :=
  (if p.neg then -1 else 1) * ((p.ip : ℚ) + (p.fp : ℚ) / (10 : ℚ) ^ p.fl)

/-- Python `float(v)` on a sign-free string: digits with at most one `.`,
at least one digit in total; `none` models the `ValueError` path. -/
def pyFloatUnsigned (v : PyStr) : Option FloatParts :=
  let a := v.takeWhile (fun c => c ≠ '.')
  let r := v.dropWhile (fun c => c ≠ '.')
  match r with
  | [] =>
    if a ≠ [] ∧ a.all Char.isDigit then some ⟨false, natOfDigits a, 0, 0⟩ else none
  | _ :: b =>
    if (a ++ b) ≠ [] ∧ a.all Char.isDigit ∧ b.all Char.isDigit then
      some ⟨false, natOfDigits a, natOfDigits b, b.length⟩
    else none

/-- Python `float(v)` (after the code's character filter only digits, `.`,
`,`, `-` can remain; commas and extra minus signs fail to parse). -/
def pyFloatParts (v : PyStr) : Option FloatParts :=
  match v with
  | '-' :: rest => (pyFloatUnsigned rest).map (fun p => { p with neg := true })
  | _ => pyFloatUnsigned v

/-- Python `float(v)` as a rational. -/
def pyFloat (v : PyStr) : Option ℚ :=
  (pyFloatParts v).map FloatParts.val

/-- The series-level cleanup of `_to_float_series_tr` (lines 73–76): replace
NBSP by space, `str.strip`, then keep only `[0-9,.\-]`. -/
def cleanNumeric (v : PyStr) : PyStr :=
  (pyStrip (v.map (fun c => if c = ' ' then ' ' else c))).filter
    (fun c => c.isDigit || c = ',' || c = '.' || c = '-')

/-- The separator disambiguation of `_one` (lines 82–90): with both separators
the rightmost is decimal; a lone comma is decimal; otherwise leave as-is. -/
def sepNormalize (v : PyStr) : PyStr :=
  if ',' ∈ v ∧ '.' ∈ v then
    if rfind ',' v > rfind '.' v then replaceAll ',' '.' (removeAll '.' v)
    else removeAll ',' v
  else if ',' ∈ v ∧ '.' ∉ v then replaceAll ',' '.' v
  else v

/-- The inner `_one` of `_to_float_series_tr` (lines 78–94), returning decimal
components: degenerate strings map to missing, otherwise disambiguate the
separators and parse. -/
def floatOneTRParts (v : PyStr) : Option FloatParts :=
  if v = [] ∨ v = ['-'] ∨ v = ['.'] ∨ v = [','] then none
  else pyFloatParts (sepNormalize v)

/-- The inner `_one` of `_to_float_series_tr` as a rational. -/
def floatOneTR (v : PyStr) : Option ℚ :=
  (floatOneTRParts v).map FloatParts.val

/-- `_to_float_series_tr` applied to one cell, as a `String`. -/
def parseNumTR (s : String) : Option ℚ :=
  floatOneTR (cleanNumeric s.toList)

/-! ### Column-name normalization (`_normalize_cols`, lines 60–69) -/

/-- `re.sub(r"\\s+", " ", s)`: collapse every maximal whitespace run to a
single space (each run is emitted as one space at its last character). -/
def collapseWs : PyStr → PyStr
  | [] => []
  | c :: rest =>
    if pyIsSpace c then
      match rest with
      | [] => [' ']
      | d :: _ => if pyIsSpace d then collapseWs rest else ' ' :: collapseWs rest
    else c :: collapseWs rest

/-- One pass of a paren-whitespace scrubber: the flag records that only
whitespace has been seen since the trigger parenthesis `pc`, and such
whitespace is deleted. -/
def parenWsAux (pc : Char) : Bool → PyStr → PyStr
  | _, [] => []
  | s, c :: rest =>
    if s ∧ pyIsSpace c then parenWsAux pc true rest
    else if c = pc then pc :: parenWsAux pc true rest
    else c :: parenWsAux pc false rest

/-- `re.sub(r"\\(\\s+", "(", s)`: delete whitespace directly after `(`. -/
def dropAfterParen (v : PyStr) : PyStr :=
  parenWsAux '(' false v

/-- `re.sub(r"\\s+\\)", ")", s)`: delete whitespace directly before `)`,
realized as the mirror image of the after-`(` rule. -/
def dropBeforeParen (v : PyStr) : PyStr :=
  (parenWsAux ')' false v.reverse).reverse

/-- `_normalize_cols` on one column name: NBSP to space, collapse whitespace
runs, strip spaces just inside parentheses, trim. -/
def normalizeCol (v : PyStr) : PyStr :=
  pyStrip (dropBeforeParen (dropAfterParen (collapseWs (replaceAll ' ' ' ' v))))

/-- `_normalize_cols` as a `String → String` map. -/
def normalizeColStr (s : String) : String :=
  ⟨normalizeCol s.toList⟩

/-! ### Symbol mapping (`to_yahoo_symbol`, lines 109–113) -/

/-- `str.upper()` on one character (ASCII letters, as the source's tickers). -/
def pyUpper (c : Char) : Char :=
  if 97 ≤ c.toNat ∧ c.toNat ≤ 122 then Char.ofNat (c.toNat - 32) else c

/-- `to_yahoo_symbol`: trim, upper-case, empty for empty, append `.IS`
unless the code already ends with it. -/
def to_yahoo_symbol (t : PyStr) : PyStr :=
  let code := (pyStrip t).map pyUpper
  if code = [] then []
  else if ['.', 'I', 'S'] <:+ code then code
  else code ++ ['.', 'I', 'S']

/-- `to_yahoo_symbol` as a `String → String` map. -/
def toYahooSymbolStr (s : String) : String :=
  ⟨to_yahoo_symbol s.toList⟩

/-! ### Dataframe model

Cells are text, a (finite) number, or NaN/missing.  A frame is a column-name
list plus row-major data aligned by position. -/

inductive Cell
  | str (s : PyStr)
  | real (q : ℚ)
  | na
deriving DecidableEq

/-- Whether a cell holds text. -/
def Cell.isStr : Cell → Bool
  | Cell.str _ => true
  | _ => false

structure Frame where
  cols : List String
  data : List (List Cell)
deriving DecidableEq

/-- Column read by name at row `i` (missing column, row or cell gives NaN,
as pandas row access does for absent labels). -/
def Frame.getCell (f : Frame) (name : String) (i : ℕ) : Cell :=
  match f.cols.findIdx? (fun c => c = name), f.data.get? i with
  | some j, some row => row.getD j Cell.na
  | _, _ => Cell.na

/-- Whole column by name. -/
def Frame.getCol (f : Frame) (name : String) : List Cell :=
  match f.cols.findIdx? (fun c => c = name) with
  | some j => f.data.map (fun row => row.getD j Cell.na)
  | none => f.data.map (fun _ => Cell.na)

/-- `df[name] = vals`: overwrite an existing column, or append a new one. -/
def Frame.setCol (f : Frame) (name : String) (vals : List Cell) : Frame :=
  match f.cols.findIdx? (fun c => c = name) with
  | some j => { f with data := f.data.zipWith (fun row v => row.set j v) vals }
  | none =>
    { cols := f.cols ++ [name],
      data := f.data.zipWith (fun row v => row ++ [v]) vals }

/-- `row.get(name)` on a row Series labelled by `cols`. -/
def rowGet (cols : List String) (row : List Cell) (name : String) : Cell :=
  match cols.findIdx? (fun c => c = name) with
  | some j => row.getD j Cell.na
  | none => Cell.na

/-! ### Target evaluation (`prepare_display`, lines 204–230) -/

/-- `_to_float_series_tr` on one cell: `astype(str)` renders a missing cell as
the text "nan", which cleans to empty and parses back to missing; a numeric
cell round-trips through its decimal rendering, i.e. stays itself. -/
def cellToFloatTR : Cell → Cell
  | Cell.str s =>
    match floatOneTR (cleanNumeric s) with
    | some q => Cell.real q
    | none => Cell.na
  | Cell.real q => Cell.real q
  | Cell.na => Cell.na

/-- `Series / 2.0` on one cell (after `_to_float_series_tr` the column holds
only numbers and NaN). -/
def cellHalf : Cell → Cell
  | Cell.real q => Cell.real (q / 2)
  | _ => Cell.na

/-- The price dictionary seen by `prepare_display`: ticker to float-or-None. -/
abbrev QPriceMap := List (PyStr × Option ℚ)

/-- `df["Ticker"].map(live_prices)`: dictionary lookup per cell; absent keys,
None values and non-text cells give NaN. -/
def mapLivePrice (live : QPriceMap) : Cell → Cell
  | Cell.str s =>
    match live.lookup s with
    | some (some q) => Cell.real q
    | _ => Cell.na
  | _ => Cell.na

def required_cols : List String :=
  ["Ticker", "AVWAP HEDEF+4 (TRY)", "AVWAP HEDEF+4 (EUR)"]

def display_cols : List String :=
  ["Hisse Adı", "Hisse Fiyatı", "VWAP Yüzde 30 Hedef", "VWAP TL Hedef",
   "VWAP EURO HEDEF"]

/-- `prepare_display` on the heap of frame objects: the working copy is
allocated at a fresh address (`.copy()`), the three column writes mutate only
that address, and the output frame is freshly built.  Returns the heap after
the call and the schema error (the missing-column list of the `KeyError`) or
the display frame. -/
def prepare_display_heap (h : List Frame) (rawRef : ℕ) (live : QPriceMap) :
    List Frame × Except (List String) Frame :=
  match h.get? rawRef with
  | none => (h, Except.error [])
  | some raw =>
    let missing := required_cols.filter (fun c => ¬ (c ∈ raw.cols))
    if missing ≠ [] then (h, Except.error missing)
    else
      let dfRef := h.length
      let h := h ++ [raw]
      let upd1 := fun (f : Frame) =>
        f.setCol "AVWAP HEDEF+4 (TRY)" ((f.getCol "AVWAP HEDEF+4 (TRY)").map cellToFloatTR)
      let h := h.set dfRef (upd1 (h.getD dfRef ⟨[], []⟩))
      let upd2 := fun (f : Frame) =>
        f.setCol "AVWAP HEDEF+4 (EUR)" ((f.getCol "AVWAP HEDEF+4 (EUR)").map cellToFloatTR)
      let h := h.set dfRef (upd2 (h.getD dfRef ⟨[], []⟩))
      let upd3 := fun (f : Frame) =>
        f.setCol "Hisse Fiyatı" ((f.getCol "Ticker").map (mapLivePrice live))
      let h := h.set dfRef (upd3 (h.getD dfRef ⟨[], []⟩))
      let df := h.getD dfRef ⟨[], []⟩
      let out : Frame :=
        { cols := display_cols,
          data := (List.range df.data.length).map (fun i =>
            [df.getCell "Ticker" i,
             df.getCell "Hisse Fiyatı" i,
             cellHalf (df.getCell "AVWAP HEDEF+4 (TRY)" i),
             df.getCell "AVWAP HEDEF+4 (TRY)" i,
             df.getCell "AVWAP HEDEF+4 (EUR)" i]) }
      (h, Except.ok out)

/-- `prepare_display` as a plain function of the raw frame value. -/
def prepare_display (raw : Frame) (live : QPriceMap) : Except (List String) Frame :=
  (prepare_display_heap [raw] 0 live).2

/-- The working frame `df` of `prepare_display` after its three column
writes (parse both target columns in place, then join the live prices). -/
def prepareWorkFrame (raw : Frame) (live : QPriceMap) : Frame :=
  let df1 := raw.setCol "AVWAP HEDEF+4 (TRY)"
    ((raw.getCol "AVWAP HEDEF+4 (TRY)").map cellToFloatTR)
  let df2 := df1.setCol "AVWAP HEDEF+4 (EUR)"
    ((df1.getCol "AVWAP HEDEF+4 (EUR)").map cellToFloatTR)
  df2.setCol "Hisse Fiyatı" ((df2.getCol "Ticker").map (mapLivePrice live))

/-! ### Cell styling (`style_targets` / `_row_style`, lines 232–267) -/

def price_col : String := "Hisse Fiyatı"

def target_cols : List String :=
  ["VWAP Yüzde 30 Hedef", "VWAP TL Hedef", "VWAP EURO HEDEF"]

/-- `pd.to_numeric(x, errors="coerce")` on one cell: numbers pass through,
NaN stays missing, text parses as a plain (US-style) float or coerces to
missing. -/
def to_numeric_coerce : Cell → Option ℚ
  | Cell.real q => some q
  | Cell.na => none
  | Cell.str s => pyFloat (pyStrip s)

def green : String := "background-color: #d9f7e3"

/-- `_row_style` (lines 237–249): one CSS string per column; a target cell is
highlighted exactly when both the row's price and the target coerce to
numbers and price ≥ target. -/
def row_style (cols : List String) (row : List Cell) : List String :=
  let price := to_numeric_coerce (rowGet cols row price_col)
  cols.map (fun col =>
    if col ∈ target_cols then
      match price, to_numeric_coerce (rowGet cols row col) with
      | some p, some t => if p ≥ t then green else ""
      | _, _ => ""
    else "")

/-- `style_targets` on the heap: copies the display frame to a fresh address,
reads it to build the per-row styles, and never writes any address. -/
def style_targets_heap (h : List Frame) (ref : ℕ) :
    List Frame × List (List String) :=
  match h.get? ref with
  | none => (h, [])
  | some dispDf =>
    let df := dispDf
    let h := h ++ [df]
    (h, df.data.map (fun row => row_style df.cols row))

/-- The styles computed by `style_targets` for a display frame value. -/
def style_targets (f : Frame) : List (List String) :=
  (style_targets_heap [f] 0).2

/-! ### Price download (`download_prices_batch`, lines 115–193) -/

/-- A pandas/NumPy float: finite, NaN, or a signed infinity. -/
inductive PyFloatV
  | fin (q : ℚ)
  | nan
  | inf
  | ninf
deriving DecidableEq

def PyFloatV.isFinite : PyFloatV → Bool
  | fin _ => true
  | _ => false

/-- A `yf.download` result: a MultiIndex frame of per-symbol Close series, a
single-level non-empty frame (with or without a Close column), or an empty
frame. -/
inductive BulkRes
  | multi (tbl : List (PyStr × List PyFloatV))
  | flat (close : Option (List PyFloatV))
  | emptyFrame
deriving DecidableEq

/-- The provider as an oracle: each query either throws or returns data.
`fastInfo` is `tk.fast_info.get("last_price", None)`; `history` is the Close
column of `tk.history(period="5d", interval="1d")`, `none` when the frame is
empty or lacks Close. -/
structure YfWorld where
  bulk1m : List PyStr → Except Unit BulkRes
  bulkD1 : List PyStr → Except Unit BulkRes
  fastInfo : PyStr → Except Unit (Option PyFloatV)
  history : PyStr → Except Unit (Option (List PyFloatV))

/-- `series.dropna().iloc[-1]`: last non-NaN value, `none` for the
`IndexError` on an empty result (infinities survive `dropna`). -/
def lastClose (series : List PyFloatV) : Option PyFloatV :=
  (series.filter (fun v => v ≠ PyFloatV.nan)).getLast?

/-- Python `dict` insertion order: first occurrence of each key. -/
def pyDictKeysAux (seen : List PyStr) : List PyStr → List PyStr
  | [] => []
  | t :: ts =>
    if t ∈ seen then pyDictKeysAux seen ts
    else t :: pyDictKeysAux (t :: seen) ts

def pyDictKeys (ts : List PyStr) : List PyStr := pyDictKeysAux [] ts

/-- The `prices` dictionary: insertion-ordered keys with float-or-None
values. -/
abbrev PriceDict := List (PyStr × Option PyFloatV)

/-- `prices[k] = v`. -/
def dictSet (m : PriceDict) (k : PyStr) (v : Option PyFloatV) : PriceDict :=
  if m.any (fun p => p.1 = k) then
    m.map (fun p => if p.1 = k then (k, v) else p)
  else m ++ [(k, v)]

/-- One iteration of the MultiIndex loop shared by stages 1 and 2 (lines
127–134 and 154–161): extract the symbol's last non-NaN Close, store it only
if finite; any lookup/index failure leaves the entry alone. -/
def bulkMultiUpdate (tbl : List (PyStr × List PyFloatV)) (prices : PriceDict)
    (pair : PyStr × PyStr) : PriceDict :=
  match tbl.lookup pair.2 with
  | none => prices
  | some sub =>
    match lastClose sub with
    | none => prices
    | some v => if v.isFinite then dictSet prices pair.1 (some v) else prices

/-- Stage 1 (lines 121–142): bulk 1-minute query over all mapped symbols.
In the single-ticker single-level branch (line 138) the value is stored
without a finiteness check, exactly as in the source. -/
def stage1 (w : YfWorld) (tickers : List PyStr) (prices : PriceDict) : PriceDict :=
  let symbols := (tickers.filter (fun t => t ≠ [])).map to_yahoo_symbol
  match w.bulk1m symbols with
  | Except.error _ => prices
  | Except.ok (BulkRes.multi tbl) =>
    (tickers.zip symbols).foldl (bulkMultiUpdate tbl) prices
  | Except.ok (BulkRes.flat close) =>
    match tickers with
    | [t0] =>
      match close with
      | none => prices
      | some series =>
        match lastClose series with
        | none => prices
        | some v => dictSet prices t0 (some v)
    | _ => prices
  | Except.ok BulkRes.emptyFrame => prices

/-- Stage 2 (lines 144–170): bulk daily query over the still-missing subset;
both branches check finiteness. -/
def stage2 (w : YfWorld) (prices : PriceDict) : PriceDict :=
  let missing := (prices.filter (fun p => p.2 = none)).map Prod.fst
  if missing = [] then prices
  else
    let sym_mis := missing.map to_yahoo_symbol
    match w.bulkD1 sym_mis with
    | Except.error _ => prices
    | Except.ok (BulkRes.multi tbl) =>
      (missing.zip sym_mis).foldl (bulkMultiUpdate tbl) prices
    | Except.ok (BulkRes.flat close) =>
      match missing with
      | [m0] =>
        match close with
        | none => prices
        | some series =>
          match lastClose series with
          | none => prices
          | some v => if v.isFinite then dictSet prices m0 (some v) else prices
      | _ => prices
    | Except.ok BulkRes.emptyFrame => prices

/-- The single-symbol fallback chain of stage 3 (lines 174–191): fast_info
last price, else daily history close; a non-finite candidate is discarded and
any exception leaves the ticker unresolved. -/
def resolveSingle (w : YfWorld) (bist : PyStr) : Option PyFloatV :=
  let sym := to_yahoo_symbol bist
  let lp0 : Option PyFloatV :=
    match w.fastInfo sym with
    | Except.error _ => none
    | Except.ok v => v
  match lp0 with
  | some v => if v.isFinite then some v else none
  | none =>
    match w.history sym with
    | Except.error _ => none
    | Except.ok none => none
    | Except.ok (some series) =>
      match lastClose series with
      | none => none
      | some v => if v.isFinite then some v else none

/-- Stage 3 (lines 172–191): per-symbol resolution for the tickers still
missing a price. -/
def stage3 (w : YfWorld) (prices : PriceDict) : PriceDict :=
  let still := (prices.filter (fun p => p.2 = none)).map Prod.fst
  still.foldl (fun acc b => dictSet acc b (resolveSingle w b)) prices

/-- `download_prices_batch`: initialize every requested ticker to None, then
run the three stages.  Every stage catches its provider exceptions, so the
function is total. -/
def download_prices_batch (w : YfWorld) (tickers : List PyStr) : PriceDict :=
  let prices : PriceDict := (pyDictKeys tickers).map (fun t => (t, none))
  stage3 w (stage2 w (stage1 w tickers prices))

/-- The value a bulk query yields for one symbol: the last non-NaN Close of
the symbol's series in a MultiIndex result, if finite. -/
def bulkCloseOf (r : Except Unit BulkRes) (sym : PyStr) : Option PyFloatV :=
  match r with
  | Except.ok (BulkRes.multi tbl) =>
    match tbl.lookup sym with
    | none => none
    | some sub =>
      match lastClose sub with
      | none => none
      | some v => if v.isFinite then some v else none
  | _ => none

/-- The price a one-ticker batch derives from the 1-minute bulk result
(lines 126–140): from a MultiIndex frame the symbol's last non-NaN Close only
if finite; from a single-level frame the last non-NaN Close of its Close
column stored without a finiteness check (line 138). -/
def bulk1mSingleClose (r : Except Unit BulkRes) (sym : PyStr) : Option PyFloatV :=
  match r with
  | Except.ok (BulkRes.multi tbl) =>
    match tbl.lookup sym with
    | none => none
    | some sub =>
      match lastClose sub with
      | none => none
      | some v => if v.isFinite then some v else none
  | Except.ok (BulkRes.flat close) =>
    match close with
    | none => none
    | some series => lastClose series
  | _ => none

/-- The price a one-ticker batch derives from the daily bulk result
(lines 153–168): both the MultiIndex and the single-level branch store only a
finite last Close. -/
def bulkD1SingleClose (r : Except Unit BulkRes) (sym : PyStr) : Option PyFloatV :=
  match r with
  | Except.ok (BulkRes.multi tbl) =>
    match tbl.lookup sym with
    | none => none
    | some sub =>
      match lastClose sub with
      | none => none
      | some v => if v.isFinite then some v else none
  | Except.ok (BulkRes.flat close) =>
    match close with
    | none => none
    | some series =>
      match lastClose series with
      | none => none
      | some v => if v.isFinite then some v else none
  | _ => none

/-- Modelled from the spec: the ordered fallback chain exactly as §4.2 states
it — fast snapshot last price first, then the most recent 1-minute close,
then the most recent daily close, stopping at the first valid price. -/
def resolveSpecOrder (w : YfWorld) (t : PyStr) : Option PyFloatV :=
  let sym := to_yahoo_symbol t
  let fast : Option PyFloatV :=
    match w.fastInfo sym with
    | Except.error _ => none
    | Except.ok none => none
    | Except.ok (some v) => if v.isFinite then some v else none
  match fast with
  | some v => some v
  | none =>
    match bulkCloseOf (w.bulk1m [sym]) sym with
    | some v => some v
    | none => bulkCloseOf (w.bulkD1 [sym]) sym

/-- The order the code actually implements for a one-ticker batch: 1-minute
bulk close (MultiIndex or single-level frame), then daily bulk close
(MultiIndex or single-level frame), then the fast_info / daily-history
single-symbol chain — each step taken only when the previous stored
nothing. -/
def resolveCodeOrder (w : YfWorld) (t : PyStr) : Option PyFloatV :=
  let sym := to_yahoo_symbol t
  match bulk1mSingleClose (w.bulk1m [sym]) sym with
  | some v => some v
  | none =>
    match bulkD1SingleClose (w.bulkD1 [sym]) sym with
    | some v => some v
    | none => resolveSingle w t

/-! ### Module flow after the sheet load (lines 270–314) -/

/-- Lexicographic order of Python `sorted` on strings. -/
def strLt : PyStr → PyStr → Bool
  | [], [] => false
  | [], _ :: _ => true
  | _ :: _, [] => false
  | a :: as, b :: bs => if a = b then strLt as bs else decide (a < b)

def insertStr (x : PyStr) : List PyStr → List PyStr
  | [] => [x]
  | y :: ys => if strLt x y then x :: y :: ys else y :: insertStr x ys

/-- Python `sorted` (stable insertion sort). -/
def sortStrs : List PyStr → List PyStr
  | [] => []
  | x :: xs => insertStr x (sortStrs xs)

/-- `astype(str)` on one cell; NaN renders as the text "nan".  The decimal
rendering of a float cell is not needed by any claim and is kept opaque. -/
def cellAsStr : Cell → PyStr
  | Cell.str s => s
  | Cell.na => ['n', 'a', 'n']
  | Cell.real _ => ['n', 'u', 'm']

inductive AppEvent
  | priceFetch (tickers : List PyStr)
  | renderTable
deriving DecidableEq

inductive AppResult
  | tickerColError
  | noTickersStop
  | schemaError (missing : List String)
  | rendered (display : Frame)
deriving DecidableEq

/-- The float-or-None dict entries as display-cell prices; a non-finite float
(reachable only through line 138, see the download theorems) carries no
finite value and is collapsed to missing here. -/
def toQPrice : Option PyFloatV → Option ℚ
  | some (PyFloatV.fin q) => some q
  | _ => none

def toQPriceMap (m : PriceDict) : QPriceMap :=
  m.map (fun p => (p.1, toQPrice p.2))

/-- The module body after a successful sheet load (lines 278–314): check the
Ticker column, collect the unique tickers, take the sidebar selection
(`selected`, all tickers when empty), fetch prices (line 302), filter the
rows to the selection, build the display frame and render it.  The event
trace records the price fetch and the final render. -/
def runApp (raw : Frame) (selected : List PyStr) (w : YfWorld) :
    List AppEvent × AppResult :=
  if "Ticker" ∉ raw.cols then ([], AppResult.tickerColError)
  else
    let all_tickers := pyDictKeys ((raw.getCol "Ticker").map cellAsStr)
    if all_tickers = [] then ([], AppResult.noTickersStop)
    else
      let options := sortStrs all_tickers
      let tickers := if selected ≠ [] then selected else options
      let prices := download_prices_batch w tickers
      let filtered : Frame :=
        { raw with
          data := raw.data.filter (fun row =>
            cellAsStr (rowGet raw.cols row "Ticker") ∈ tickers) }
      match prepare_display filtered (toQPriceMap prices) with
      | Except.error missing =>
        ([AppEvent.priceFetch tickers], AppResult.schemaError missing)
      | Except.ok disp =>
        ([AppEvent.priceFetch tickers, AppEvent.renderTable],
         AppResult.rendered disp)

/-! ### Formatting equivalence of column names

Modelled from the spec: two column names "differ only in formatting" when one
is reachable from the other by replacing a whitespace run by another
whitespace run (this covers non-breaking vs regular spaces, since the
non-breaking space is whitespace), deleting whitespace directly inside a
parenthesis, or deleting leading or trailing whitespace. -/

/-- One formatting edit between column names. -/
inductive FmtStep : PyStr → PyStr → Prop
  | wsRun (l u w r : PyStr) (hu : u ≠ []) (hau : ∀ c ∈ u, pyIsSpace c = true)
      (hw : w ≠ []) (haw : ∀ c ∈ w, pyIsSpace c = true) :
      FmtStep (l ++ u ++ r) (l ++ w ++ r)
  | parenOpen (l u r : PyStr) (hu : u ≠ []) (hau : ∀ c ∈ u, pyIsSpace c = true) :
      FmtStep (l ++ '(' :: (u ++ r)) (l ++ '(' :: r)
  | parenClose (l u r : PyStr) (hu : u ≠ []) (hau : ∀ c ∈ u, pyIsSpace c = true) :
      FmtStep (l ++ u ++ ')' :: r) (l ++ ')' :: r)
  | leadWs (u v : PyStr) (hu : u ≠ []) (hau : ∀ c ∈ u, pyIsSpace c = true) :
      FmtStep (u ++ v) v
  | trailWs (u v : PyStr) (hu : u ≠ []) (hau : ∀ c ∈ u, pyIsSpace c = true) :
      FmtStep (v ++ u) v

/-- Closure of `FmtStep` under reflexivity, symmetry and transitivity: the
names differ only by the spec's formatting freedoms. -/
inductive FmtEquiv : PyStr → PyStr → Prop
  | refl (v : PyStr) : FmtEquiv v v
  | symm {a b : PyStr} : FmtEquiv a b → FmtEquiv b a
  | trans {a b c : PyStr} : FmtEquiv a b → FmtEquiv b c → FmtEquiv a c
  | step {a b : PyStr} : FmtStep a b → FmtEquiv a b

/-- The state transition of the `parenWsAux` scrubber on one character. -/
def parenStep (pc : Char) (s : Bool) (c : Char) : Bool :=
  if s ∧ pyIsSpace c then true else if c = pc then true else false

/-- The state of the `parenWsAux` scrubber after consuming a string. -/
def parenSt (pc : Char) (s : Bool) : PyStr → Bool
  | [] => s
  | c :: rest => parenSt pc (parenStep pc s c) rest

/-- The normalization pipeline after the NBSP replacement: collapse
whitespace runs, scrub whitespace inside parentheses, trim. -/
def normTail (v : PyStr) : PyStr :=
  pyStrip (dropBeforeParen (dropAfterParen (collapseWs v)))

/-! ## Theorems -/

/-- **C9** (failing input): the claim that every float stored in the batch
fetcher's output is finite is violated by line 138: for a one-ticker batch
whose 1-minute bulk query returns a single-level frame with Close `[+inf]`,
the non-finite value is stored in the mapping (every sibling branch guards
with `np.isfinite`; this one does not). -/
theorem C9_nonfinite_price_stored :
    List.lookup ['A']
      (download_prices_batch
        ⟨fun _ => Except.ok (BulkRes.flat (some [PyFloatV.inf])),
         fun _ => Except.error (), fun _ => Except.error (),
         fun _ => Except.error ()⟩
        [['A']]) = some (some PyFloatV.inf)
  ∧ PyFloatV.inf.isFinite = false := by
  constructor
  · decide
  · decide

/-- **C4** (counterexample): the claimed resolution order (fast snapshot
first, then 1-minute close, then daily close) disagrees with the code: in a
world where the fast snapshot yields 5 and the 1-minute bulk close yields 7,
the code resolves 7, while the claimed chain resolves 5. -/
theorem C4_order_counterexample :
    List.lookup ['A']
      (download_prices_batch
        ⟨fun _ => Except.ok (BulkRes.multi [(['A', '.', 'I', 'S'], [PyFloatV.fin 7])]),
         fun _ => Except.error (),
         fun _ => Except.ok (some (PyFloatV.fin 5)),
         fun _ => Except.error ()⟩
        [['A']]) = some (some (PyFloatV.fin 7))
  ∧ resolveSpecOrder
      ⟨fun _ => Except.ok (BulkRes.multi [(['A', '.', 'I', 'S'], [PyFloatV.fin 7])]),
       fun _ => Except.error (),
       fun _ => Except.ok (some (PyFloatV.fin 5)),
       fun _ => Except.error ()⟩
      ['A'] = some (PyFloatV.fin 5)
  ∧ (PyFloatV.fin 7 ≠ PyFloatV.fin 5) := by
  refine ⟨by decide, by decide, ?_⟩
  intro hEq
  cases hEq

/-- **C6** (counterexample): with a sheet that has a Ticker column but lacks
both target columns, the app fetches prices first (the trace contains the
fetch event) and only then fails with the schema error; so the schema error
does not happen before the price fetch, contrary to the claim. -/
theorem C6_fetch_precedes_schema_error :
    runApp ⟨["Ticker"], [[Cell.str ['A']]]⟩ [['A']]
      ⟨fun _ => Except.error (), fun _ => Except.error (),
       fun _ => Except.error (), fun _ => Except.error ()⟩ =
    ([AppEvent.priceFetch [['A']]],
     AppResult.schemaError ["AVWAP HEDEF+4 (TRY)", "AVWAP HEDEF+4 (EUR)"]) := by
  decide

/-- **C10**: neither evaluation nor styling mutates its input frame: on the
heap of frame objects, `prepare_display` leaves the raw frame's address
unchanged (it mutates only the freshly allocated copy), and `style_targets`
leaves the styled frame's address unchanged. -/
theorem C10_inputs_unchanged (h : List Frame) (rawRef : ℕ) (live : QPriceMap)
    (h' : List Frame) (ref : ℕ) :
    (prepare_display_heap h rawRef live).1.get? rawRef = h.get? rawRef
  ∧ (style_targets_heap h' ref).1.get? ref = h'.get? ref := by
  constructor
  · unfold prepare_display_heap
    cases hg : h.get? rawRef with
    | none => exact hg
    | some raw =>
      have hlt : rawRef < h.length := by
        rcases List.get?_eq_some.1 hg with ⟨hl, _⟩
        exact hl
      have hne : h.length ≠ rawRef := Nat.ne_of_gt hlt
      split
      all_goals rename_i heq
      all_goals first
      | exact Option.noConfusion heq
      | (injection heq with heq2
         subst heq2
         dsimp only
         split
         · exact hg
         · simp only [List.get?_eq_getElem?]
           rw [List.getElem?_set_ne hne, List.getElem?_set_ne hne,
             List.getElem?_set_ne hne, ← List.get?_eq_getElem?,
             List.get?_append hlt, hg])
  · unfold style_targets_heap
    cases hg : h'.get? ref with
    | none => exact hg
    | some df =>
      have hlt : ref < h'.length := by
        rcases List.get?_eq_some.1 hg with ⟨hl, _⟩
        exact hl
      rw [List.get?_append hlt, hg]

/-- **C6** (amended): `prepare_display` does fail with a `KeyError` naming
every missing required column at once, and the error depends only on the
column set (no row is evaluated, no fetched price consulted); but in the
module flow the price fetch happens *before* `prepare_display` runs, and a
sheet lacking the Ticker column stops the app before the fetch with a
different error that names no columns. -/
theorem C6_amended_schema_error :
    (∀ (cols : List String) (d d' : List (List Cell)) (live live' : QPriceMap),
      required_cols.filter (fun c => ¬ (c ∈ cols)) ≠ [] →
      prepare_display ⟨cols, d⟩ live
          = Except.error (required_cols.filter (fun c => ¬ (c ∈ cols)))
        ∧ prepare_display ⟨cols, d'⟩ live' = prepare_display ⟨cols, d⟩ live)
  ∧ (∀ (raw : Frame) (selected : List PyStr) (w : YfWorld),
      "Ticker" ∉ raw.cols → runApp raw selected w = ([], AppResult.tickerColError)) := by
  constructor
  · intro cols d d' live live' hmiss
    have key : ∀ (dd : List (List Cell)) (ll : QPriceMap),
        prepare_display ⟨cols, dd⟩ ll
          = Except.error (required_cols.filter (fun c => ¬ (c ∈ cols))) := by
      intro dd ll
      unfold prepare_display prepare_display_heap
      dsimp only [List.get?]
      rw [if_pos hmiss]
    exact ⟨key d live, (key d' live').trans (key d live).symm⟩
  · intro raw selected w hT
    unfold runApp
    simp [hT]

/-- **C1**: a styled display cell is highlighted ("reached") iff both the
row's resolved price and the target cell are present numbers with
price ≥ target; a missing price or target never highlights; and every styled
cell is either the highlight or the empty style — no error, no sentinel. -/
theorem C1_reached_iff_price_ge_target (cols : List String) (row : List Cell)
    (i : ℕ) (col : String) (hcol : cols.get? i = some col)
    (htgt : col ∈ target_cols)
    (hps : (rowGet cols row price_col).isStr = false)
    (hgs : (rowGet cols row col).isStr = false) :
    ((row_style cols row).get? i = some green ↔
      ∃ p g, rowGet cols row price_col = Cell.real p ∧
        rowGet cols row col = Cell.real g ∧ g ≤ p)
  ∧ ((row_style cols row).get? i = some green ∨
      (row_style cols row).get? i = some "") := by
  have hmap : (row_style cols row).get? i =
      some (if col ∈ target_cols then
        match to_numeric_coerce (rowGet cols row price_col),
              to_numeric_coerce (rowGet cols row col) with
        | some p, some t => if p ≥ t then green else ""
        | _, _ => ""
      else "") := by
    unfold row_style
    rw [List.get?_map, hcol]
    rfl
  rw [hmap]
  cases hpc : rowGet cols row price_col with
  | str s => rw [hpc] at hps; exact absurd hps (by simp [Cell.isStr])
  | na =>
    simp only [htgt, if_true, to_numeric_coerce]
    constructor
    · constructor
      · intro hgr
        exact absurd (Option.some.inj hgr) (by decide)
      · rintro ⟨p, g, hp, -, -⟩
        exact absurd hp (by simp)
    · right; trivial
  | real q =>
    cases hgc : rowGet cols row col with
    | str s => rw [hgc] at hgs; exact absurd hgs (by simp [Cell.isStr])
    | na =>
      simp only [htgt, if_true, to_numeric_coerce]
      constructor
      · constructor
        · intro hgr
          exact absurd (Option.some.inj hgr) (by decide)
        · rintro ⟨p, g, -, hg, -⟩
          exact absurd hg (by simp)
      · right; trivial
    | real t =>
      simp only [htgt, if_true, to_numeric_coerce]
      by_cases hle : t ≤ q
      · constructor
        · constructor
          · intro _
            exact ⟨q, t, rfl, rfl, hle⟩
          · intro _
            simp [ge_iff_le, hle]
        · left
          simp [ge_iff_le, hle]
      · constructor
        · constructor
          · intro hgr
            rw [if_neg (by simpa [ge_iff_le] using hle)] at hgr
            exact absurd (Option.some.inj hgr) (by decide)
          · rintro ⟨p, g, hp, hg, hle2⟩
            cases Cell.real.inj hp
            cases Cell.real.inj hg
            exact absurd hle2 hle
        · right
          simp [ge_iff_le, hle]

/-! ### Character and strip lemmas -/

theorem charToNat_ofNat {n : ℕ} (h : n.isValidChar) : (Char.ofNat n).toNat = n := by
  have h32 : n < 2 ^ 32 := by
    rcases h with h | ⟨h1, h2⟩ <;> omega
  simp [Char.ofNat, h, Char.ofNatAux, Char.toNat, UInt32.toNat, UInt32.ofNat']

theorem pyIsSpace_iff {c : Char} : pyIsSpace c = true ↔
    c.toNat = 32 ∨ c.toNat = 9 ∨ c.toNat = 10 ∨ c.toNat = 13 ∨
    c.toNat = 11 ∨ c.toNat = 12 ∨ c.toNat = 160 := by
  simp [pyIsSpace, Bool.or_eq_true, decide_eq_true_eq, or_assoc]

theorem pyUpper_toNat_of_lower {c : Char} (h : 97 ≤ c.toNat ∧ c.toNat ≤ 122) :
    (pyUpper c).toNat = c.toNat - 32 := by
  unfold pyUpper
  rw [if_pos h]
  exact charToNat_ofNat (Or.inl (by omega))

theorem pyUpper_eq_of_not_lower {c : Char} (h : ¬ (97 ≤ c.toNat ∧ c.toNat ≤ 122)) :
    pyUpper c = c := by
  unfold pyUpper
  rw [if_neg h]

theorem pyUpper_idem (c : Char) : pyUpper (pyUpper c) = pyUpper c := by
  by_cases h : 97 ≤ c.toNat ∧ c.toNat ≤ 122
  · have ht := pyUpper_toNat_of_lower h
    apply pyUpper_eq_of_not_lower
    omega
  · rw [pyUpper_eq_of_not_lower h, pyUpper_eq_of_not_lower h]

theorem pyUpper_not_space {c : Char} (h : pyIsSpace c = false) :
    pyIsSpace (pyUpper c) = false := by
  by_cases hl : 97 ≤ c.toNat ∧ c.toNat ≤ 122
  · have ht := pyUpper_toNat_of_lower hl
    by_contra hsp
    rw [Bool.not_eq_false] at hsp
    rcases pyIsSpace_iff.1 hsp with h1 | h1 | h1 | h1 | h1 | h1 | h1 <;> omega
  · rwa [pyUpper_eq_of_not_lower hl]

theorem head?_dropWhile_false {α : Type} {p : α → Bool} {l : List α} {x : α}
    (h : (l.dropWhile p).head? = some x) : p x = false := by
  have hm := List.head?_dropWhile_not p l
  rw [h] at hm
  exact hm

theorem dropWhile_eq_self_of_head {α : Type} {p : α → Bool} {l : List α}
    (h : ∀ x, l.head? = some x → p x = false) : l.dropWhile p = l := by
  cases l with
  | nil => rfl
  | cons a t =>
    have := h a rfl
    simp [List.dropWhile_cons, this]

theorem getLast?_dropWhile {α : Type} {p : α → Bool} {l : List α}
    (h : l.dropWhile p ≠ []) : (l.dropWhile p).getLast? = l.getLast? := by
  induction l with
  | nil => simp at h
  | cons a t ih =>
    by_cases hp : p a
    · rw [List.dropWhile_cons_of_pos hp] at h ⊢
      rw [ih h]
      cases t with
      | nil => simp at h
      | cons b l2 => rfl
    · rw [List.dropWhile_cons_of_neg hp]

theorem pyStrip_head?_not_space {t : PyStr} {x : Char}
    (h : (pyStrip t).head? = some x) : pyIsSpace x = false := by
  unfold pyStrip at h
  rw [List.head?_reverse] at h
  by_cases hd : ((t.dropWhile pyIsSpace).reverse).dropWhile pyIsSpace = []
  · rw [hd] at h
    cases h
  · rw [getLast?_dropWhile hd, List.getLast?_reverse] at h
    exact head?_dropWhile_false h

theorem pyStrip_getLast?_not_space {t : PyStr} {x : Char}
    (h : (pyStrip t).getLast? = some x) : pyIsSpace x = false := by
  unfold pyStrip at h
  rw [List.getLast?_reverse] at h
  exact head?_dropWhile_false h

theorem pyStrip_eq_self {v : PyStr}
    (h1 : ∀ x, v.head? = some x → pyIsSpace x = false)
    (h2 : ∀ x, v.getLast? = some x → pyIsSpace x = false) : pyStrip v = v := by
  unfold pyStrip
  rw [dropWhile_eq_self_of_head h1]
  rw [dropWhile_eq_self_of_head (by
    intro x hx
    rw [List.head?_reverse] at hx
    exact h2 x hx)]
  exact List.reverse_reverse v

/-- **C8**: the symbol mapper is idempotent: mapping an already-mapped ticker
changes nothing, because the mapped form is already trimmed, upper-case and
carries the `.IS` suffix (and the empty string maps to itself). -/
theorem C8_to_yahoo_symbol_idempotent (t : PyStr) :
    to_yahoo_symbol (to_yahoo_symbol t) = to_yahoo_symbol t := by
  by_cases hc : (pyStrip t).map pyUpper = []
  · have h1 : to_yahoo_symbol t = [] := by
      unfold to_yahoo_symbol
      rw [if_pos hc]
    rw [h1]
    rfl
  · have hhead : ∀ x, ((pyStrip t).map pyUpper).head? = some x → pyIsSpace x = false := by
      intro x hx
      rw [List.head?_map] at hx
      rcases Option.map_eq_some'.1 hx with ⟨y, hy, hxy⟩
      rw [← hxy]
      exact pyUpper_not_space (pyStrip_head?_not_space hy)
    have hupper : ((pyStrip t).map pyUpper).map pyUpper = (pyStrip t).map pyUpper := by
      rw [List.map_map]
      exact List.map_congr_left (fun a _ => pyUpper_idem a)
    by_cases hsuf : ['.', 'I', 'S'] <:+ (pyStrip t).map pyUpper
    · have hu : to_yahoo_symbol t = (pyStrip t).map pyUpper := by
        unfold to_yahoo_symbol
        rw [if_neg hc, if_pos hsuf]
      obtain ⟨w, hw⟩ := hsuf
      have hlast : ∀ x, ((pyStrip t).map pyUpper).getLast? = some x → pyIsSpace x = false := by
        intro x hx
        rw [← hw, show w ++ ['.', 'I', 'S'] = (w ++ ['.', 'I']) ++ ['S'] by simp,
          List.getLast?_concat] at hx
        cases hx
        decide
      have hstrip : pyStrip ((pyStrip t).map pyUpper) = (pyStrip t).map pyUpper :=
        pyStrip_eq_self hhead hlast
      rw [hu]
      unfold to_yahoo_symbol
      rw [hstrip, hupper, if_neg hc, if_pos (hw ▸ List.suffix_append w ['.', 'I', 'S'])]
    · have hu : to_yahoo_symbol t = (pyStrip t).map pyUpper ++ ['.', 'I', 'S'] := by
        unfold to_yahoo_symbol
        rw [if_neg hc, if_neg hsuf]
      have hhead2 : ∀ x, ((pyStrip t).map pyUpper ++ ['.', 'I', 'S']).head? = some x →
          pyIsSpace x = false := by
        intro x hx
        rw [List.head?_append] at hx
        cases hh : ((pyStrip t).map pyUpper).head? with
        | none =>
          exact absurd (List.head?_eq_none_iff.1 hh) hc
        | some y =>
          rw [hh, Option.or_some] at hx
          injection hx with hyx
          rw [← hyx]
          exact hhead y hh
      have hlast2 : ∀ x, ((pyStrip t).map pyUpper ++ ['.', 'I', 'S']).getLast? = some x →
          pyIsSpace x = false := by
        intro x hx
        rw [show (pyStrip t).map pyUpper ++ ['.', 'I', 'S']
              = ((pyStrip t).map pyUpper ++ ['.', 'I']) ++ ['S'] by simp,
          List.getLast?_concat] at hx
        cases hx
        decide
      have hstrip2 : pyStrip ((pyStrip t).map pyUpper ++ ['.', 'I', 'S'])
          = (pyStrip t).map pyUpper ++ ['.', 'I', 'S'] :=
        pyStrip_eq_self hhead2 hlast2
      have hupper2 : ((pyStrip t).map pyUpper ++ ['.', 'I', 'S']).map pyUpper
          = (pyStrip t).map pyUpper ++ ['.', 'I', 'S'] := by
        rw [List.map_append, hupper,
          show List.map pyUpper ['.', 'I', 'S'] = ['.', 'I', 'S'] from by decide]
      rw [hu]
      unfold to_yahoo_symbol
      rw [hstrip2, hupper2, if_neg (by simp),
        if_pos (List.suffix_append ((pyStrip t).map pyUpper) ['.', 'I', 'S'])]

/-! ### Price-dictionary lemmas -/

theorem lookup_cons_pair (t : PyStr) (p : PyStr × Option PyFloatV) (rest : PriceDict) :
    List.lookup t (p :: rest) = if t = p.1 then some p.2 else List.lookup t rest := by
  obtain ⟨k0, v0⟩ := p
  by_cases h : t = k0
  · rw [if_pos h]
    simp [List.lookup, h]
  · rw [if_neg h]
    simp [List.lookup, beq_false_of_ne h]

theorem lookup_isSome_iff_mem_fst {m : PriceDict} {t : PyStr} :
    (List.lookup t m).isSome = true ↔ t ∈ m.map Prod.fst := by
  induction m with
  | nil => simp [List.lookup]
  | cons p rest ih =>
    rw [lookup_cons_pair, List.map_cons, List.mem_cons]
    by_cases hk : t = p.1
    · rw [if_pos hk]
      simp [hk]
    · rw [if_neg hk]
      simp [ih, hk]

theorem lookup_map_replace_ne {m : PriceDict} {k t : PyStr} {v : Option PyFloatV}
    (h : t ≠ k) :
    List.lookup t (m.map (fun p => if p.1 = k then (k, v) else p))
      = List.lookup t m := by
  induction m with
  | nil => rfl
  | cons p rest ih =>
    obtain ⟨k0, v0⟩ := p
    rw [List.map_cons]
    dsimp only
    by_cases hp : k0 = k
    · rw [if_pos hp, lookup_cons_pair, lookup_cons_pair]
      rw [if_neg (by exact h), if_neg (by simpa [hp] using h), ih]
    · rw [if_neg hp, lookup_cons_pair, lookup_cons_pair]
      by_cases ht0 : t = k0
      · rw [if_pos ht0, if_pos ht0]
      · rw [if_neg ht0, if_neg ht0, ih]

theorem lookup_map_replace_self {m : PriceDict} {k : PyStr} {v : Option PyFloatV}
    (hmem : ∃ p ∈ m, p.1 = k) :
    List.lookup k (m.map (fun p => if p.1 = k then (k, v) else p)) = some v := by
  induction m with
  | nil => simp at hmem
  | cons p rest ih =>
    obtain ⟨k0, v0⟩ := p
    rw [List.map_cons]
    dsimp only
    by_cases hp : k0 = k
    · rw [if_pos hp, lookup_cons_pair, if_pos rfl]
    · rw [if_neg hp, lookup_cons_pair, if_neg (fun he => hp he.symm)]
      rcases hmem with ⟨q, hq, hqk⟩
      rcases List.mem_cons.1 hq with rfl | hq2
      · exact absurd hqk hp
      · exact ih ⟨q, hq2, hqk⟩

theorem lookup_append_pair (t : PyStr) (m rest : PriceDict) :
    List.lookup t (m ++ rest) = (List.lookup t m).or (List.lookup t rest) := by
  induction m with
  | nil => simp [List.lookup]
  | cons p ms ih =>
    rw [List.cons_append, lookup_cons_pair, lookup_cons_pair]
    by_cases h : t = p.1
    · rw [if_pos h, if_pos h]
      rfl
    · rw [if_neg h, if_neg h, ih]

/-- Evaluation of `dictSet`: the set key reads back the new value, all other
keys are untouched. -/
theorem lookup_dictSet (m : PriceDict) (k t : PyStr) (v : Option PyFloatV) :
    List.lookup t (dictSet m k v)
      = if t = k then some v else List.lookup t m := by
  unfold dictSet
  by_cases hmem : m.any (fun p => p.1 = k)
  · rw [if_pos hmem]
    by_cases ht : t = k
    · subst ht
      rw [if_pos rfl]
      rcases List.any_eq_true.1 hmem with ⟨p, hp, hpk⟩
      exact lookup_map_replace_self ⟨p, hp, of_decide_eq_true hpk⟩
    · rw [if_neg ht]
      exact lookup_map_replace_ne ht
  · rw [if_neg hmem, lookup_append_pair, lookup_cons_pair]
    by_cases ht : t = k
    · subst ht
      rw [if_pos rfl, if_pos rfl]
      have habs : ∀ p ∈ m, p.1 ≠ t := by
        intro p hp hpk
        exact hmem (List.any_eq_true.2 ⟨p, hp, decide_eq_true hpk⟩)
      have hnone : List.lookup t m = none := by
        cases hl : List.lookup t m with
        | none => rfl
        | some u =>
          have : t ∈ m.map Prod.fst := lookup_isSome_iff_mem_fst.1 (by rw [hl]; rfl)
          rcases List.mem_map.1 this with ⟨q, hq, hqt⟩
          exact absurd hqt (habs q hq)
      rw [hnone]
      rfl
    · rw [if_neg ht, if_neg ht]
      simp [List.lookup]

theorem fst_map_replace (m : PriceDict) (k : PyStr) (v : Option PyFloatV) :
    (m.map (fun p => if p.1 = k then (k, v) else p)).map Prod.fst
      = m.map Prod.fst := by
  induction m with
  | nil => rfl
  | cons p rest ih =>
    by_cases hp : p.1 = k
    · simp only [List.map_cons, if_pos hp, ih]
      rw [hp]
    · simp only [List.map_cons, if_neg hp, ih]

theorem fst_dictSet_of_mem {m : PriceDict} {k : PyStr} {v : Option PyFloatV}
    (hmem : k ∈ m.map Prod.fst) :
    (dictSet m k v).map Prod.fst = m.map Prod.fst := by
  unfold dictSet
  rcases List.mem_map.1 hmem with ⟨p, hp, hpk⟩
  rw [if_pos (List.any_eq_true.2 ⟨p, hp, decide_eq_true hpk⟩)]
  exact fst_map_replace m k v

theorem fst_bulkMultiUpdate {tbl : List (PyStr × List PyFloatV)} {m : PriceDict}
    {pair : PyStr × PyStr} (h : pair.1 ∈ m.map Prod.fst) :
    (bulkMultiUpdate tbl m pair).map Prod.fst = m.map Prod.fst := by
  unfold bulkMultiUpdate
  cases tbl.lookup pair.2 with
  | none => rfl
  | some sub =>
    dsimp only
    cases lastClose sub with
    | none => rfl
    | some v =>
      dsimp only
      by_cases hf : v.isFinite
      · rw [if_pos hf]
        exact fst_dictSet_of_mem h
      · rw [if_neg hf]

theorem fst_foldl_bulkMultiUpdate {tbl : List (PyStr × List PyFloatV)}
    (pairs : List (PyStr × PyStr)) (m : PriceDict)
    (h : ∀ p ∈ pairs, p.1 ∈ m.map Prod.fst) :
    (pairs.foldl (bulkMultiUpdate tbl) m).map Prod.fst = m.map Prod.fst := by
  induction pairs generalizing m with
  | nil => rfl
  | cons p ps ih =>
    rw [List.foldl_cons]
    have hfst := @fst_bulkMultiUpdate tbl m p (h p (List.mem_cons_self p ps))
    rw [ih _ (fun q hq => hfst ▸ h q (List.mem_cons_of_mem p hq)), hfst]

theorem fst_foldl_dictSet (f : PyStr → Option PyFloatV) (ks : List PyStr)
    (m : PriceDict) (h : ∀ b ∈ ks, b ∈ m.map Prod.fst) :
    (ks.foldl (fun acc b => dictSet acc b (f b)) m).map Prod.fst
      = m.map Prod.fst := by
  induction ks generalizing m with
  | nil => rfl
  | cons b ks' ih =>
    rw [List.foldl_cons]
    have hfst := @fst_dictSet_of_mem m b (f b) (h b (List.mem_cons_self b ks'))
    rw [ih _ (fun q hq => hfst ▸ h q (List.mem_cons_of_mem b hq)), hfst]

theorem fst_stage1 {w : YfWorld} {ts : List PyStr} {m : PriceDict}
    (h : ∀ x ∈ ts, x ∈ m.map Prod.fst) :
    (stage1 w ts m).map Prod.fst = m.map Prod.fst := by
  unfold stage1
  dsimp only
  cases w.bulk1m ((ts.filter (fun t => t ≠ [])).map to_yahoo_symbol) with
  | error e => rfl
  | ok res =>
    cases res with
    | multi tbl =>
      dsimp only
      refine fst_foldl_bulkMultiUpdate _ _ (fun p hp => ?_)
      exact h p.1 (List.of_mem_zip hp).1
    | flat close =>
      dsimp only
      cases ts with
      | nil => rfl
      | cons t0 ts' =>
        cases ts' with
        | cons a b => rfl
        | nil =>
          dsimp only
          cases close with
          | none => rfl
          | some series =>
            dsimp only
            cases lastClose series with
            | none => rfl
            | some v =>
              dsimp only
              exact fst_dictSet_of_mem (h t0 (List.mem_cons_self t0 []))
    | emptyFrame => rfl

theorem mem_fst_of_missing {m : PriceDict} {x : PyStr}
    (hx : x ∈ (m.filter (fun p => p.2 = none)).map Prod.fst) :
    x ∈ m.map Prod.fst := by
  rcases List.mem_map.1 hx with ⟨p, hp, hpk⟩
  exact List.mem_map.2 ⟨p, List.mem_of_mem_filter hp, hpk⟩

theorem fst_stage2 {w : YfWorld} {m : PriceDict} :
    (stage2 w m).map Prod.fst = m.map Prod.fst := by
  unfold stage2
  dsimp only
  by_cases hmiss : (m.filter (fun p => p.2 = none)).map Prod.fst = []
  · rw [if_pos hmiss]
  · rw [if_neg hmiss]
    cases w.bulkD1 (((m.filter (fun p => p.2 = none)).map Prod.fst).map to_yahoo_symbol) with
    | error e => rfl
    | ok res =>
      cases res with
      | multi tbl =>
        dsimp only
        refine fst_foldl_bulkMultiUpdate _ _ (fun p hp => ?_)
        exact mem_fst_of_missing (List.of_mem_zip hp).1
      | flat close =>
        dsimp only
        cases hm : (m.filter (fun p => p.2 = none)).map Prod.fst with
        | nil => rfl
        | cons m0 rest =>
          cases rest with
          | cons a b => rfl
          | nil =>
            dsimp only
            cases close with
            | none => rfl
            | some series =>
              dsimp only
              cases lastClose series with
              | none => rfl
              | some v =>
                dsimp only
                by_cases hf : v.isFinite
                · rw [if_pos hf]
                  exact fst_dictSet_of_mem
                    (mem_fst_of_missing (hm ▸ List.mem_cons_self m0 []))
                · rw [if_neg hf]
      | emptyFrame => rfl

theorem fst_stage3 {w : YfWorld} {m : PriceDict} :
    (stage3 w m).map Prod.fst = m.map Prod.fst := by
  unfold stage3
  dsimp only
  exact fst_foldl_dictSet _ _ _ (fun b hb => mem_fst_of_missing hb)

theorem mem_pyDictKeysAux {seen ts : List PyStr} {x : PyStr} :
    x ∈ pyDictKeysAux seen ts ↔ x ∈ ts ∧ x ∉ seen := by
  induction ts generalizing seen with
  | nil => simp [pyDictKeysAux]
  | cons t ts' ih =>
    unfold pyDictKeysAux
    by_cases ht : t ∈ seen
    · rw [if_pos ht, ih]
      constructor
      · rintro ⟨h1, h2⟩
        exact ⟨List.mem_cons_of_mem t h1, h2⟩
      · rintro ⟨h1, h2⟩
        rcases List.mem_cons.1 h1 with rfl | h3
        · exact absurd ht h2
        · exact ⟨h3, h2⟩
    · rw [if_neg ht]
      by_cases hx : x = t
      · subst hx
        simp [ht]
      · simp only [List.mem_cons, hx, false_or]
        rw [ih]
        constructor
        · rintro ⟨h1, h2⟩
          refine ⟨h1, fun hs => h2 (List.mem_cons_of_mem t hs)⟩
        · rintro ⟨h1, h2⟩
          refine ⟨h1, fun hs => ?_⟩
          rcases List.mem_cons.1 hs with rfl | h3
          · exact hx rfl
          · exact h2 h3

theorem mem_pyDictKeys {ts : List PyStr} {x : PyStr} :
    x ∈ pyDictKeys ts ↔ x ∈ ts := by
  unfold pyDictKeys
  rw [mem_pyDictKeysAux]
  simp

theorem fst_download (w : YfWorld) (ts : List PyStr) :
    (download_prices_batch w ts).map Prod.fst = pyDictKeys ts := by
  unfold download_prices_batch
  rw [fst_stage3, fst_stage2, fst_stage1 ?hmem]
  case hmem =>
    intro x hx
    simp only [List.map_map]
    simpa [Function.comp] using mem_pyDictKeys.2 hx
  · rw [List.map_map]
    exact (List.map_congr_left (fun a _ => rfl)).trans (List.map_id _)

theorem lookup_foldl_dictSet_not_mem {f : PyStr → Option PyFloatV}
    {ks : List PyStr} {m : PriceDict} {t : PyStr} (ht : t ∉ ks) :
    List.lookup t (ks.foldl (fun acc b => dictSet acc b (f b)) m)
      = List.lookup t m := by
  induction ks generalizing m with
  | nil => rfl
  | cons b ks' ih =>
    rw [List.foldl_cons,
      ih (fun h2 => ht (List.mem_cons_of_mem b h2)),
      lookup_dictSet,
      if_neg (fun he => ht (by rw [he]; exact List.mem_cons_self b ks'))]

theorem lookup_foldl_dictSet_mem {f : PyStr → Option PyFloatV}
    {ks : List PyStr} {m : PriceDict} {t : PyStr} (ht : t ∈ ks) :
    List.lookup t (ks.foldl (fun acc b => dictSet acc b (f b)) m)
      = some (f t) := by
  induction ks generalizing m with
  | nil => cases ht
  | cons b ks' ih =>
    rw [List.foldl_cons]
    by_cases hmem : t ∈ ks'
    · exact ih hmem
    · have hb : t = b := by
        rcases List.mem_cons.1 ht with h | h
        · exact h
        · exact absurd h hmem
      subst hb
      rw [lookup_foldl_dictSet_not_mem hmem, lookup_dictSet, if_pos rfl]

/-- **C3**: the batch fetcher's mapping has an entry exactly for every
requested ticker — a ticker absent from the input never appears, a requested
one always does — and when the bulk queries throw for the entire batch,
every requested ticker is still attempted (and its entry is exactly the
result of the single-symbol fallback chain); the model is a total function,
so nothing escapes to the caller. -/
theorem C3_entry_for_exactly_requested (w : YfWorld) (ts : List PyStr) :
    (∀ t, (List.lookup t (download_prices_batch w ts)).isSome = true ↔ t ∈ ts)
  ∧ ((∀ syms, w.bulk1m syms = Except.error ()) →
     (∀ syms, w.bulkD1 syms = Except.error ()) →
     ∀ t ∈ ts,
       List.lookup t (download_prices_batch w ts) = some (resolveSingle w t)) := by
  constructor
  · intro t
    rw [lookup_isSome_iff_mem_fst, fst_download, mem_pyDictKeys]
  · intro hb1 hb2 t ht
    unfold download_prices_batch
    have h1 : stage1 w ts ((pyDictKeys ts).map (fun t => (t, none))) =
        (pyDictKeys ts).map (fun t => (t, none)) := by
      unfold stage1
      dsimp only
      rw [hb1]
    have h2 : stage2 w ((pyDictKeys ts).map (fun t => (t, none))) =
        (pyDictKeys ts).map (fun t => (t, none)) := by
      unfold stage2
      dsimp only
      by_cases hmiss : ((((pyDictKeys ts).map
          (fun t => (t, (none : Option PyFloatV)))).filter
          (fun p => decide (p.2 = none))).map Prod.fst) = []
      · rw [if_pos hmiss]
      · rw [if_neg hmiss, hb2]
    dsimp only
    rw [h1, h2]
    unfold stage3
    dsimp only
    have hstill : ((((pyDictKeys ts).map
        (fun t => (t, (none : Option PyFloatV)))).filter
        (fun p => decide (p.2 = none))).map Prod.fst) = pyDictKeys ts := by
      rw [List.filter_map,
        show ((fun (p : PyStr × Option PyFloatV) => decide (p.2 = none)) ∘
            fun t => (t, (none : Option PyFloatV))) = fun _ => true
          from funext (fun a => rfl),
        List.filter_true, List.map_map]
      exact (List.map_congr_left (fun a _ => rfl)).trans (List.map_id _)
    rw [hstill]
    exact lookup_foldl_dictSet_mem (mem_pyDictKeys.2 ht)

/-- Witness for C3 at a concrete world and batch. -/
theorem C3_witness :
    ((List.lookup ['A']
        (download_prices_batch
          ⟨fun _ => Except.error (), fun _ => Except.error (),
           fun _ => Except.error (), fun _ => Except.error ()⟩
          [['A'], ['B']])).isSome = true)
  ∧ (List.lookup ['B']
      (download_prices_batch
        ⟨fun _ => Except.error (), fun _ => Except.error (),
         fun _ => Except.error (), fun _ => Except.error ()⟩
        [['A'], ['B']])
      = some (resolveSingle
          ⟨fun _ => Except.error (), fun _ => Except.error (),
           fun _ => Except.error (), fun _ => Except.error ()⟩
          ['B'])) := by
  constructor
  · exact ((C3_entry_for_exactly_requested _ _).1 ['A']).2 (by decide)
  · exact (C3_entry_for_exactly_requested _ _).2
      (fun _ => rfl) (fun _ => rfl) ['B'] (by decide)

/-! ### Single-ticker evaluation of the download stages -/

theorem dictSet_singleton_self (t : PyStr) (x v : Option PyFloatV) :
    dictSet [(t, x)] t v = [(t, v)] := by
  simp [dictSet]

theorem stage1_single {w : YfWorld} {t : PyStr} (ht : t ≠ []) :
    stage1 w [t] [(t, none)]
      = [(t, bulk1mSingleClose (w.bulk1m [to_yahoo_symbol t]) (to_yahoo_symbol t))] := by
  unfold stage1
  dsimp only
  rw [show List.filter (fun x => decide (x ≠ [])) [t] = [t] by simp [ht]]
  dsimp only [List.map]
  cases hb : w.bulk1m [to_yahoo_symbol t] with
  | error e => rfl
  | ok res =>
    cases res with
    | multi tbl =>
      dsimp only [bulk1mSingleClose, List.zip, List.zipWith, List.foldl]
      unfold bulkMultiUpdate
      cases hlk : tbl.lookup (to_yahoo_symbol t) with
      | none => rfl
      | some sub =>
        dsimp only
        cases hlc : lastClose sub with
        | none => rfl
        | some v =>
          dsimp only
          by_cases hf : v.isFinite
          · rw [if_pos hf, if_pos hf, dictSet_singleton_self]
          · rw [if_neg hf, if_neg hf]
    | flat close =>
      dsimp only [bulk1mSingleClose]
      cases close with
      | none => rfl
      | some series =>
        dsimp only
        cases hlc : lastClose series with
        | none => rfl
        | some v =>
          dsimp only
          rw [dictSet_singleton_self]
    | emptyFrame => rfl

theorem stage2_single_none {w : YfWorld} {t : PyStr} :
    stage2 w [(t, none)]
      = [(t, bulkD1SingleClose (w.bulkD1 [to_yahoo_symbol t]) (to_yahoo_symbol t))] := by
  unfold stage2
  dsimp only
  rw [show (([(t, (none : Option PyFloatV))]).filter
      (fun p => decide (p.2 = none))).map Prod.fst = [t] from by simp]
  rw [if_neg (show ¬ ([t] : List PyStr) = [] by simp)]
  dsimp only [List.map]
  cases hb : w.bulkD1 [to_yahoo_symbol t] with
  | error e => rfl
  | ok res =>
    cases res with
    | multi tbl =>
      dsimp only [bulkD1SingleClose, List.zip, List.zipWith, List.foldl]
      unfold bulkMultiUpdate
      cases hlk : tbl.lookup (to_yahoo_symbol t) with
      | none => rfl
      | some sub =>
        dsimp only
        cases hlc : lastClose sub with
        | none => rfl
        | some v =>
          dsimp only
          by_cases hf : v.isFinite
          · rw [if_pos hf, if_pos hf, dictSet_singleton_self]
          · rw [if_neg hf, if_neg hf]
    | flat close =>
      dsimp only [bulkD1SingleClose]
      cases close with
      | none => rfl
      | some series =>
        dsimp only
        cases hlc : lastClose series with
        | none => rfl
        | some v =>
          dsimp only
          by_cases hf : v.isFinite
          · rw [if_pos hf, if_pos hf, dictSet_singleton_self]
          · rw [if_neg hf, if_neg hf]
    | emptyFrame => rfl

theorem stage2_single_some {w : YfWorld} {t : PyStr} {v : PyFloatV} :
    stage2 w [(t, some v)] = [(t, some v)] := rfl

theorem stage3_single_none {w : YfWorld} {t : PyStr} :
    stage3 w [(t, none)] = [(t, resolveSingle w t)] := by
  unfold stage3
  dsimp only
  rw [show (([(t, (none : Option PyFloatV))]).filter
      (fun p => decide (p.2 = none))).map Prod.fst = [t] from by simp]
  dsimp only [List.foldl]
  exact dictSet_singleton_self t none _

theorem stage3_single_some {w : YfWorld} {t : PyStr} {v : PyFloatV} :
    stage3 w [(t, some v)] = [(t, some v)] := rfl

/-- **C4** (amended): for a one-ticker batch with a nonempty ticker, in every
provider world the resolved entry follows the code's order — (1) last 1-minute
bulk close (from a MultiIndex result only if finite; from a single-level frame
stored even when non-finite, the line-138 slip), (2) last daily bulk close
(finite only, either frame shape), (3) fast_info last price, (4) last daily
history close — each later step taken only when the earlier ones stored
nothing. -/
theorem C4_amended_code_order (w : YfWorld) (t : PyStr) (ht : t ≠ []) :
    download_prices_batch w [t] = [(t, resolveCodeOrder w t)] := by
  unfold download_prices_batch
  dsimp only
  rw [show pyDictKeys [t] = [t] from rfl]
  dsimp only [List.map]
  rw [stage1_single ht]
  unfold resolveCodeOrder
  dsimp only
  cases hc1 : bulk1mSingleClose (w.bulk1m [to_yahoo_symbol t]) (to_yahoo_symbol t) with
  | some v => rw [stage2_single_some, stage3_single_some]
  | none =>
    rw [stage2_single_none]
    cases hc2 : bulkD1SingleClose (w.bulkD1 [to_yahoo_symbol t]) (to_yahoo_symbol t) with
    | some v => rw [stage3_single_some]
    | none => rw [stage3_single_none]

/-- Witness for the amended C4 at a concrete world. -/
theorem C4_amended_witness :
    download_prices_batch
      ⟨fun _ => Except.ok (BulkRes.multi [(['A', '.', 'I', 'S'], [PyFloatV.fin 7])]),
       fun _ => Except.error (),
       fun _ => Except.ok (some (PyFloatV.fin 5)),
       fun _ => Except.error ()⟩ [['A']]
      = [(['A'], resolveCodeOrder
          ⟨fun _ => Except.ok (BulkRes.multi [(['A', '.', 'I', 'S'], [PyFloatV.fin 7])]),
           fun _ => Except.error (),
           fun _ => Except.ok (some (PyFloatV.fin 5)),
           fun _ => Except.error ()⟩ ['A'])] :=
  C4_amended_code_order _ ['A'] (by decide)

/-- Witness for C1 at a concrete display row (price 55, derived target 50). -/
theorem C1_witness :
    ((row_style display_cols
        [Cell.str ['A'], Cell.real 55, Cell.real 50, Cell.real 100, Cell.real 5]).get? 2
        = some green ↔
      ∃ p g,
        rowGet display_cols
          [Cell.str ['A'], Cell.real 55, Cell.real 50, Cell.real 100, Cell.real 5]
          price_col = Cell.real p ∧
        rowGet display_cols
          [Cell.str ['A'], Cell.real 55, Cell.real 50, Cell.real 100, Cell.real 5]
          "VWAP Yüzde 30 Hedef" = Cell.real g ∧ g ≤ p)
  ∧ ((row_style display_cols
        [Cell.str ['A'], Cell.real 55, Cell.real 50, Cell.real 100, Cell.real 5]).get? 2
        = some green ∨
      (row_style display_cols
        [Cell.str ['A'], Cell.real 55, Cell.real 50, Cell.real 100, Cell.real 5]).get? 2
        = some "") :=
  C1_reached_iff_price_ge_target display_cols
    [Cell.str ['A'], Cell.real 55, Cell.real 50, Cell.real 100, Cell.real 5]
    2 "VWAP Yüzde 30 Hedef" (by decide) (by decide) (by decide) (by decide)

/-- Witness for the amended C6 at concrete frames. -/
theorem C6_amended_witness :
    prepare_display ⟨["Ticker"], [[Cell.str ['A']]]⟩ []
        = Except.error (required_cols.filter
            (fun c => ¬ (c ∈ (["Ticker"] : List String))))
  ∧ runApp ⟨["X"], []⟩ []
      ⟨fun _ => Except.error (), fun _ => Except.error (),
       fun _ => Except.error (), fun _ => Except.error ()⟩
      = ([], AppResult.tickerColError) :=
  ⟨(C6_amended_schema_error.1 ["Ticker"] [[Cell.str ['A']]] [] [] [] (by decide)).1,
   C6_amended_schema_error.2 ⟨["X"], []⟩ [] _ (by decide)⟩

/-! ### Frame lemmas for the target evaluator -/

theorem mem_zipWith {α β γ : Type} {g : α → β → γ} {x : γ} :
    ∀ {as : List α} {bs : List β}, x ∈ List.zipWith g as bs →
      ∃ a b, a ∈ as ∧ b ∈ bs ∧ x = g a b := by
  intro as
  induction as with
  | nil => intro bs h; simp at h
  | cons a as' ih =>
    intro bs h
    cases bs with
    | nil => simp at h
    | cons b bs' =>
      rw [List.zipWith_cons_cons] at h
      rcases List.mem_cons.1 h with rfl | h2
      · exact ⟨a, b, List.mem_cons_self a as', List.mem_cons_self b bs', rfl⟩
      · rcases ih h2 with ⟨a2, b2, ha, hb, rfl⟩
        exact ⟨a2, b2, List.mem_cons_of_mem a ha, List.mem_cons_of_mem b hb, rfl⟩

theorem findIdx?_some_pred {l : List String} {name : String} {j : ℕ}
    (h : l.findIdx? (fun c => c = name) = some j) :
    l.get? j = some name := by
  induction l generalizing j with
  | nil => cases h
  | cons c cs ih =>
    rw [List.findIdx?_cons] at h
    by_cases hc : c = name
    · rw [if_pos (by simpa using hc)] at h
      injection h with hj
      subst hj
      rw [hc]
      rfl
    · rw [if_neg (by simpa using hc), List.findIdx?_succ] at h
      rcases Option.map_eq_some'.1 h with ⟨j2, hj2, hjj⟩
      subst hjj
      exact ih hj2

theorem findIdx?_isSome_of_mem {l : List String} {name : String} (h : name ∈ l) :
    ∃ j, l.findIdx? (fun c => c = name) = some j := by
  cases hf : l.findIdx? (fun c => c = name) with
  | some j => exact ⟨j, rfl⟩
  | none =>
    have := List.findIdx?_eq_none_iff.1 hf name h
    simp at this

theorem findIdx?_append_nomatch {l tail : List String} {p : String → Bool}
    (h : ∀ x ∈ tail, p x = false) :
    (l ++ tail).findIdx? p = l.findIdx? p := by
  induction l with
  | nil =>
    rw [List.nil_append, List.findIdx?_nil]
    exact List.findIdx?_eq_none_iff.2 h
  | cons c cs ih =>
    rw [List.cons_append, List.findIdx?_cons, List.findIdx?_cons]
    by_cases hc : p c
    · rw [if_pos hc, if_pos hc]
    · rw [if_neg hc, if_neg hc, List.findIdx?_succ, List.findIdx?_succ, ih]

theorem getCell_eq_of_some {f : Frame} {name : String} {j i : ℕ} {row : List Cell}
    (hj : f.cols.findIdx? (fun c => c = name) = some j)
    (hrow : f.data.get? i = some row) :
    f.getCell name i = row.getD j Cell.na := by
  unfold Frame.getCell
  rw [hj, hrow]

theorem setCol_existing {f : Frame} {name : String} {vals : List Cell} {j : ℕ}
    (hj : f.cols.findIdx? (fun c => c = name) = some j) :
    f.setCol name vals
      = { f with data := f.data.zipWith (fun row v => row.set j v) vals } := by
  unfold Frame.setCol
  rw [hj]

theorem setCol_data_length {f : Frame} {name : String} {vals : List Cell}
    (hv : vals.length = f.data.length) :
    (f.setCol name vals).data.length = f.data.length := by
  unfold Frame.setCol
  cases f.cols.findIdx? (fun c => c = name) with
  | some j =>
    dsimp only
    rw [List.length_zipWith, hv, Nat.min_self]
  | none =>
    dsimp only
    rw [List.length_zipWith, hv, Nat.min_self]

theorem setCol_WF {f : Frame} {name : String} {vals : List Cell}
    (hwf : ∀ row ∈ f.data, row.length = f.cols.length) :
    ∀ row ∈ (f.setCol name vals).data,
      row.length = (f.setCol name vals).cols.length := by
  unfold Frame.setCol
  cases hj : f.cols.findIdx? (fun c => c = name) with
  | some j =>
    dsimp only
    intro row hrow
    rcases mem_zipWith hrow with ⟨r, v, hr, hv2, rfl⟩
    rw [List.length_set]
    exact hwf r hr
  | none =>
    dsimp only
    intro row hrow
    rcases mem_zipWith hrow with ⟨r, v, hr, hv2, rfl⟩
    simp [hwf r hr]

theorem getCol_length (f : Frame) (name : String) :
    (f.getCol name).length = f.data.length := by
  unfold Frame.getCol
  cases f.cols.findIdx? (fun c => c = name) <;> simp

theorem getCol_get? {f : Frame} {name : String} {j i : ℕ}
    (hj : f.cols.findIdx? (fun c => c = name) = some j) :
    (f.getCol name).get? i = (f.data.get? i).map (fun row => row.getD j Cell.na) := by
  unfold Frame.getCol
  rw [hj, List.get?_map]

theorem getCell_setCol_self {f : Frame} {name : String} {vals : List Cell} {j i : ℕ}
    (hj : f.cols.findIdx? (fun c => c = name) = some j)
    (hwf : ∀ row ∈ f.data, row.length = f.cols.length)
    (hv : vals.length = f.data.length) (hi : i < f.data.length) :
    (f.setCol name vals).getCell name i = vals.getD i Cell.na := by
  rw [setCol_existing hj]
  obtain ⟨row, hrow⟩ : ∃ row, f.data.get? i = some row := ⟨_, List.get?_eq_get hi⟩
  have hvi : i < vals.length := hv ▸ hi
  obtain ⟨v, hvv⟩ : ∃ v, vals.get? i = some v := ⟨_, List.get?_eq_get hvi⟩
  have hz : (f.data.zipWith (fun row v => row.set j v) vals).get? i
      = some (row.set j v) := by
    rw [List.get?_eq_getElem?, List.getElem?_zipWith,
      ← List.get?_eq_getElem?, ← List.get?_eq_getElem?, hrow, hvv]
  unfold Frame.getCell
  dsimp only
  rw [hj, hz]
  dsimp only
  have hjr : j < row.length := by
    have hjc : j < f.cols.length := by
      rcases List.get?_eq_some.1 (findIdx?_some_pred hj) with ⟨hl, _⟩
      exact hl
    rw [hwf row (List.get?_mem hrow)]
    exact hjc
  rw [List.getD_eq_getElem?_getD, List.getElem?_set_eq_of_lt _ hjr,
    List.getD_eq_getElem?_getD, ← List.get?_eq_getElem?, hvv]

theorem getCell_setCol_other {f : Frame} {name name' : String} {vals : List Cell}
    {i : ℕ} (hne : name' ≠ name)
    (hwf : ∀ row ∈ f.data, row.length = f.cols.length)
    (hv : vals.length = f.data.length) :
    (f.setCol name vals).getCell name' i = f.getCell name' i := by
  unfold Frame.setCol
  cases hj : f.cols.findIdx? (fun c => c = name) with
  | some j =>
    unfold Frame.getCell
    dsimp only
    cases hj' : f.cols.findIdx? (fun c => c = name') with
    | none =>
      cases (f.data.zipWith (fun row v => row.set j v) vals).get? i <;>
        cases f.data.get? i <;> rfl
    | some j' =>
      have hjj : j ≠ j' := by
        intro he
        subst he
        have e1 := findIdx?_some_pred hj
        have e2 := findIdx?_some_pred hj'
        rw [e1] at e2
        injection e2 with e3
        exact hne e3.symm
      cases hd : f.data.get? i with
      | none =>
        have hz : (f.data.zipWith (fun row v => row.set j v) vals).get? i = none := by
          rw [List.get?_eq_getElem?, List.getElem?_zipWith,
            ← List.get?_eq_getElem?, hd]
        rw [hz]
      | some row =>
        have hvi : i < vals.length := by
          rw [hv]
          rcases List.get?_eq_some.1 hd with ⟨hl, _⟩
          exact hl
        obtain ⟨v, hvv⟩ : ∃ v, vals.get? i = some v := ⟨_, List.get?_eq_get hvi⟩
        have hz : (f.data.zipWith (fun row v => row.set j v) vals).get? i
            = some (row.set j v) := by
          rw [List.get?_eq_getElem?, List.getElem?_zipWith,
            ← List.get?_eq_getElem?, ← List.get?_eq_getElem?, hd, hvv]
        rw [hz]
        dsimp only
        rw [List.getD_eq_getElem?_getD, List.getElem?_set_ne hjj,
          ← List.getD_eq_getElem?_getD]
  | none =>
    unfold Frame.getCell
    dsimp only
    have happ : (f.cols ++ [name]).findIdx? (fun c => c = name')
        = f.cols.findIdx? (fun c => c = name') := by
      refine findIdx?_append_nomatch (fun x hx => ?_)
      rcases List.mem_singleton.1 hx with rfl
      simpa using (fun he => hne he.symm)
    rw [happ]
    cases hj' : f.cols.findIdx? (fun c => c = name') with
    | none =>
      cases (f.data.zipWith (fun row v => row ++ [v]) vals).get? i <;>
        cases f.data.get? i <;> rfl
    | some j' =>
      cases hd : f.data.get? i with
      | none =>
        have hz : (f.data.zipWith (fun row v => row ++ [v]) vals).get? i = none := by
          rw [List.get?_eq_getElem?, List.getElem?_zipWith,
            ← List.get?_eq_getElem?, hd]
        rw [hz]
      | some row =>
        have hvi : i < vals.length := by
          rw [hv]
          rcases List.get?_eq_some.1 hd with ⟨hl, _⟩
          exact hl
        obtain ⟨v, hvv⟩ : ∃ v, vals.get? i = some v := ⟨_, List.get?_eq_get hvi⟩
        have hz : (f.data.zipWith (fun row v => row ++ [v]) vals).get? i
            = some (row ++ [v]) := by
          rw [List.get?_eq_getElem?, List.getElem?_zipWith,
            ← List.get?_eq_getElem?, ← List.get?_eq_getElem?, hd, hvv]
        rw [hz]
        dsimp only
        have hjr : j' < row.length := by
          have hjc : j' < f.cols.length := by
            rcases List.get?_eq_some.1 (findIdx?_some_pred hj') with ⟨hl, _⟩
            exact hl
          rw [hwf row (List.get?_mem hd)]
          exact hjc
        rw [List.getD_eq_getElem?_getD, List.getElem?_append_left hjr,
          ← List.getD_eq_getElem?_getD]

theorem prepare_display_ok {raw : Frame} {live : QPriceMap}
    (hmiss : required_cols.filter (fun c => ¬ (c ∈ raw.cols)) = []) :
    prepare_display raw live = Except.ok
      { cols := display_cols,
        data := (List.range (prepareWorkFrame raw live).data.length).map (fun i =>
          [(prepareWorkFrame raw live).getCell "Ticker" i,
           (prepareWorkFrame raw live).getCell "Hisse Fiyatı" i,
           cellHalf ((prepareWorkFrame raw live).getCell "AVWAP HEDEF+4 (TRY)" i),
           (prepareWorkFrame raw live).getCell "AVWAP HEDEF+4 (TRY)" i,
           (prepareWorkFrame raw live).getCell "AVWAP HEDEF+4 (EUR)" i]) } := by
  unfold prepare_display prepare_display_heap prepareWorkFrame
  dsimp only [List.get?]
  rw [if_neg (not_ne_iff.2 hmiss)]
  rfl

theorem getCell_display_frame (g : ℕ → List Cell) (n i : ℕ) (hi : i < n)
    (name : String) (j : ℕ)
    (hj : display_cols.findIdx? (fun c => c = name) = some j) :
    (Frame.mk display_cols ((List.range n).map g)).getCell name i
      = (g i).getD j Cell.na := by
  unfold Frame.getCell
  dsimp only
  rw [hj, List.get?_map, List.get?_range hi]
  rfl

/-- **C2**: for every row of a well-formed sheet holding the required
columns, the evaluator's derived target is the parsed TRY base target
divided by 2, and the two given target columns are passed through as their
parsed values, unchanged. -/
theorem C2_derived_and_passthrough_targets (raw : Frame) (live : QPriceMap)
    (hwf : ∀ row ∈ raw.data, row.length = raw.cols.length)
    (hmiss : required_cols.filter (fun c => ¬ (c ∈ raw.cols)) = [])
    (i : ℕ) (hi : i < raw.data.length) :
    ∃ disp, prepare_display raw live = Except.ok disp
      ∧ disp.getCell "VWAP Yüzde 30 Hedef" i
          = cellHalf (cellToFloatTR (raw.getCell "AVWAP HEDEF+4 (TRY)" i))
      ∧ disp.getCell "VWAP TL Hedef" i
          = cellToFloatTR (raw.getCell "AVWAP HEDEF+4 (TRY)" i)
      ∧ disp.getCell "VWAP EURO HEDEF" i
          = cellToFloatTR (raw.getCell "AVWAP HEDEF+4 (EUR)" i) := by
  have hmem : ∀ c ∈ required_cols, c ∈ raw.cols := by
    intro c hc
    by_contra hnc
    have hin : c ∈ required_cols.filter (fun c => ¬ (c ∈ raw.cols)) :=
      List.mem_filter.2 ⟨hc, by simpa using hnc⟩
    rw [hmiss] at hin
    cases hin
  have hTRY : "AVWAP HEDEF+4 (TRY)" ∈ raw.cols := hmem _ (by simp [required_cols])
  have hEUR : "AVWAP HEDEF+4 (EUR)" ∈ raw.cols := hmem _ (by simp [required_cols])
  obtain ⟨jT, hjT⟩ := findIdx?_isSome_of_mem hTRY
  obtain ⟨jE, hjE⟩ := findIdx?_isSome_of_mem hEUR
  -- the three column writes
  set vals1 := (raw.getCol "AVWAP HEDEF+4 (TRY)").map cellToFloatTR with hv1def
  set df1 := raw.setCol "AVWAP HEDEF+4 (TRY)" vals1 with hdf1
  have hv1 : vals1.length = raw.data.length := by
    rw [hv1def, List.length_map, getCol_length]
  have hc1 : df1.cols = raw.cols := by
    rw [hdf1, setCol_existing hjT]
  have hl1 : df1.data.length = raw.data.length := by
    rw [hdf1]
    exact setCol_data_length hv1
  have hwf1 : ∀ row ∈ df1.data, row.length = df1.cols.length := by
    rw [hdf1]
    exact setCol_WF hwf
  set vals2 := (df1.getCol "AVWAP HEDEF+4 (EUR)").map cellToFloatTR with hv2def
  set df2 := df1.setCol "AVWAP HEDEF+4 (EUR)" vals2 with hdf2
  have hjE1 : df1.cols.findIdx? (fun c => c = "AVWAP HEDEF+4 (EUR)") = some jE := by
    rw [hc1]
    exact hjE
  have hv2 : vals2.length = df1.data.length := by
    rw [hv2def, List.length_map, getCol_length]
  have hc2 : df2.cols = raw.cols := by
    rw [hdf2, setCol_existing hjE1, hc1]
  have hl2 : df2.data.length = raw.data.length := by
    rw [hdf2, setCol_data_length hv2, hl1]
  have hwf2 : ∀ row ∈ df2.data, row.length = df2.cols.length := by
    rw [hdf2]
    exact setCol_WF hwf1
  set vals3 := (df2.getCol "Ticker").map (mapLivePrice live) with hv3def
  have hv3 : vals3.length = df2.data.length := by
    rw [hv3def, List.length_map, getCol_length]
  have hwork : prepareWorkFrame raw live = df2.setCol "Hisse Fiyatı" vals3 := rfl
  have hlw : (prepareWorkFrame raw live).data.length = raw.data.length := by
    rw [hwork, setCol_data_length hv3, hl2]
  -- the TRY cell of the working frame
  have hTRYcell : (prepareWorkFrame raw live).getCell "AVWAP HEDEF+4 (TRY)" i
      = cellToFloatTR (raw.getCell "AVWAP HEDEF+4 (TRY)" i) := by
    rw [hwork, getCell_setCol_other (by decide) hwf2 hv3, hdf2,
      getCell_setCol_other (by decide) hwf1 hv2, hdf1,
      getCell_setCol_self hjT hwf hv1 hi]
    obtain ⟨row, hrow⟩ : ∃ row, raw.data.get? i = some row := ⟨_, List.get?_eq_get hi⟩
    rw [hv1def, List.getD_eq_getElem?_getD, ← List.get?_eq_getElem?, List.get?_map,
      getCol_get? hjT, hrow, getCell_eq_of_some hjT hrow]
    rfl
  -- the EUR cell of the working frame
  have hEURcell : (prepareWorkFrame raw live).getCell "AVWAP HEDEF+4 (EUR)" i
      = cellToFloatTR (raw.getCell "AVWAP HEDEF+4 (EUR)" i) := by
    have hi1 : i < df1.data.length := by rw [hl1]; exact hi
    rw [hwork, getCell_setCol_other (by decide) hwf2 hv3, hdf2,
      getCell_setCol_self hjE1 hwf1 hv2 hi1]
    obtain ⟨row, hrow⟩ : ∃ row, df1.data.get? i = some row := ⟨_, List.get?_eq_get hi1⟩
    rw [hv2def, List.getD_eq_getElem?_getD, ← List.get?_eq_getElem?, List.get?_map,
      getCol_get? hjE1, hrow]
    have hback : df1.getCell "AVWAP HEDEF+4 (EUR)" i
        = raw.getCell "AVWAP HEDEF+4 (EUR)" i := by
      rw [hdf1, getCell_setCol_other (by decide) hwf hv1]
    dsimp only [Option.map, Option.getD]
    rw [← getCell_eq_of_some hjE1 hrow, hback]
  -- assemble via the computed ok-result
  have hiw : i < (prepareWorkFrame raw live).data.length := by
    rw [hlw]
    exact hi
  refine ⟨_, prepare_display_ok hmiss, ?_, ?_, ?_⟩
  · rw [getCell_display_frame _ _ i hiw _ 2 (by rfl), hTRYcell]
    rfl
  · rw [getCell_display_frame _ _ i hiw _ 3 (by rfl), hTRYcell]
    rfl
  · rw [getCell_display_frame _ _ i hiw _ 4 (by rfl), hEURcell]
    rfl

/-- Witness for C2 at a concrete one-row sheet. -/
theorem C2_witness :
    ∃ disp,
      prepare_display
          ⟨["Ticker", "AVWAP HEDEF+4 (TRY)", "AVWAP HEDEF+4 (EUR)"],
           [[Cell.str ['A'], Cell.str ['1', '0', '0', ',', '0', '0'],
             Cell.str ['5', ',', '0', '0']]]⟩
          [(['A'], some 55)] = Except.ok disp
      ∧ disp.getCell "VWAP Yüzde 30 Hedef" 0
          = cellHalf (cellToFloatTR
              ((⟨["Ticker", "AVWAP HEDEF+4 (TRY)", "AVWAP HEDEF+4 (EUR)"],
                 [[Cell.str ['A'], Cell.str ['1', '0', '0', ',', '0', '0'],
                   Cell.str ['5', ',', '0', '0']]]⟩ : Frame).getCell
                "AVWAP HEDEF+4 (TRY)" 0))
      ∧ disp.getCell "VWAP TL Hedef" 0
          = cellToFloatTR
              ((⟨["Ticker", "AVWAP HEDEF+4 (TRY)", "AVWAP HEDEF+4 (EUR)"],
                 [[Cell.str ['A'], Cell.str ['1', '0', '0', ',', '0', '0'],
                   Cell.str ['5', ',', '0', '0']]]⟩ : Frame).getCell
                "AVWAP HEDEF+4 (TRY)" 0)
      ∧ disp.getCell "VWAP EURO HEDEF" 0
          = cellToFloatTR
              ((⟨["Ticker", "AVWAP HEDEF+4 (TRY)", "AVWAP HEDEF+4 (EUR)"],
                 [[Cell.str ['A'], Cell.str ['1', '0', '0', ',', '0', '0'],
                   Cell.str ['5', ',', '0', '0']]]⟩ : Frame).getCell
                "AVWAP HEDEF+4 (EUR)" 0) :=
  C2_derived_and_passthrough_targets
    ⟨["Ticker", "AVWAP HEDEF+4 (TRY)", "AVWAP HEDEF+4 (EUR)"],
     [[Cell.str ['A'], Cell.str ['1', '0', '0', ',', '0', '0'],
       Cell.str ['5', ',', '0', '0']]]⟩
    [(['A'], some 55)] (by decide) (by decide) 0 (by decide)

/-! ### Parser lemmas -/

theorem digit_ne {x c : Char} (hx : x.isDigit = true) (hc : c.isDigit = false) :
    x ≠ c := by
  intro he
  rw [he, hc] at hx
  cases hx

theorem takeWhile_append_sat {α : Type} {p : α → Bool} {l : List α} {x : α}
    {r : List α} (h : ∀ y ∈ l, p y = true) (hx : p x = false) :
    (l ++ x :: r).takeWhile p = l := by
  induction l with
  | nil =>
    rw [List.nil_append]
    exact List.takeWhile_cons_of_neg (by simp [hx])
  | cons c cs ih =>
    rw [List.cons_append,
      List.takeWhile_cons_of_pos (h c (List.mem_cons_self c cs)),
      ih (fun y hy => h y (List.mem_cons_of_mem c hy))]

theorem dropWhile_append_sat {α : Type} {p : α → Bool} {l : List α} {x : α}
    {r : List α} (h : ∀ y ∈ l, p y = true) (hx : p x = false) :
    (l ++ x :: r).dropWhile p = x :: r := by
  induction l with
  | nil =>
    rw [List.nil_append]
    exact List.dropWhile_cons_of_neg (by simp [hx])
  | cons c cs ih =>
    rw [List.cons_append,
      List.dropWhile_cons_of_pos (h c (List.mem_cons_self c cs)),
      ih (fun y hy => h y (List.mem_cons_of_mem c hy))]

theorem pyFloatUnsigned_decimal {d1 d2 : List Char}
    (h1 : ∀ y ∈ d1, y.isDigit = true) (h2 : ∀ y ∈ d2, y.isDigit = true)
    (hne : d1 ++ d2 ≠ []) :
    pyFloatUnsigned (d1 ++ '.' :: d2)
      = some ⟨false, natOfDigits d1, natOfDigits d2, d2.length⟩ := by
  have hp1 : ∀ y ∈ d1, (fun c => decide (c ≠ '.')) y = true := by
    intro y hy
    exact decide_eq_true (digit_ne (h1 y hy) (by decide))
  unfold pyFloatUnsigned
  rw [takeWhile_append_sat hp1 (by decide), dropWhile_append_sat hp1 (by decide)]
  dsimp only
  rw [if_pos ⟨hne, List.all_eq_true.2 h1, List.all_eq_true.2 h2⟩]

theorem pyFloatParts_eq_unsigned {v : PyStr} (h : ∀ rest, v ≠ '-' :: rest) :
    pyFloatParts v = pyFloatUnsigned v := by
  unfold pyFloatParts
  split
  · rename_i rest
    exact absurd rfl (h rest)
  · rfl

theorem pyFloatParts_decimal {d1 d2 : List Char}
    (h1 : ∀ y ∈ d1, y.isDigit = true) (h2 : ∀ y ∈ d2, y.isDigit = true)
    (hne : d1 ++ d2 ≠ []) :
    pyFloatParts (d1 ++ '.' :: d2)
      = some ⟨false, natOfDigits d1, natOfDigits d2, d2.length⟩ := by
  rw [pyFloatParts_eq_unsigned, pyFloatUnsigned_decimal h1 h2 hne]
  intro rest he
  cases d1 with
  | nil =>
    rw [List.nil_append] at he
    injection he with hh _
    exact absurd hh (by decide)
  | cons c cs =>
    rw [List.cons_append] at he
    injection he with hh _
    exact digit_ne (h1 c (List.mem_cons_self c cs)) (by decide) hh

theorem rfind_not_mem {c : Char} {l : PyStr} (h : c ∉ l) : rfind c l = -1 := by
  induction l with
  | nil => rfl
  | cons x xs ih =>
    have hx : x ≠ c := fun he => h (he ▸ List.mem_cons_self x xs)
    simp only [rfind]
    rw [ih (fun hm => h (List.mem_cons_of_mem x hm))]
    rw [if_neg (by norm_num), if_neg hx]

theorem rfind_lt_length (c : Char) (l : PyStr) : rfind c l < (l.length : Int) := by
  induction l with
  | nil => simp [rfind]
  | cons x xs ih =>
    simp only [rfind, List.length_cons]
    by_cases h1 : rfind c xs ≥ 0
    · rw [if_pos h1]
      push_cast
      omega
    · rw [if_neg h1]
      by_cases h2 : x = c
      · rw [if_pos h2]
        push_cast
        omega
      · rw [if_neg h2]
        push_cast
        omega

theorem rfind_append_not_mem {c : Char} {r : PyStr} (h : c ∉ r) (l : PyStr) :
    rfind c (l ++ r) = rfind c l := by
  induction l with
  | nil =>
    rw [List.nil_append, rfind_not_mem h]
    rfl
  | cons x xs ih =>
    rw [List.cons_append]
    simp only [rfind, List.append_eq]
    rw [ih]

theorem rfind_append_self {c : Char} {r : PyStr} (hr : c ∉ r) (l : PyStr) :
    rfind c (l ++ c :: r) = (l.length : Int) := by
  induction l with
  | nil =>
    rw [List.nil_append]
    simp only [rfind]
    rw [rfind_not_mem hr]
    norm_num
  | cons x xs ih =>
    rw [List.cons_append]
    simp only [rfind, List.append_eq, List.length_cons]
    rw [ih, if_pos (by positivity)]
    push_cast
    ring

theorem not_degenerate_of_two_le {v : PyStr} (h : 2 ≤ v.length) :
    ¬ (v = [] ∨ v = ['-'] ∨ v = ['.'] ∨ v = [',']) := by
  rintro (rfl | rfl | rfl | rfl) <;> simp at h

theorem transform_comma_last {u c : PyStr} (hu : ∀ y ∈ u, y ≠ ',')
    (hc1 : ∀ y ∈ c, y ≠ ',') (hc2 : ∀ y ∈ c, y ≠ '.') :
    replaceAll ',' '.' (removeAll '.' (u ++ ',' :: c))
      = removeAll '.' u ++ '.' :: c := by
  unfold removeAll replaceAll
  rw [List.filter_append, List.filter_cons, if_pos (by decide),
    List.filter_eq_self.2 (fun a ha => decide_eq_true (hc2 a ha)),
    List.map_append, List.map_cons, if_pos rfl]
  congr 1
  · refine (List.map_congr_left ?_).trans (List.map_id _)
    intro a ha
    simp [hu a (List.mem_of_mem_filter ha)]
  · congr 1
    refine (List.map_congr_left ?_).trans (List.map_id _)
    intro a ha
    simp [hc1 a ha]

theorem transform_dot_last {u c : PyStr} (hc1 : ∀ y ∈ c, y ≠ ',') :
    removeAll ',' (u ++ '.' :: c) = removeAll ',' u ++ '.' :: c := by
  unfold removeAll
  rw [List.filter_append, List.filter_cons, if_pos (by decide),
    List.filter_eq_self.2 (fun a ha => decide_eq_true (hc1 a ha))]

theorem transform_only_comma {d1 d2 : PyStr} (h1 : ∀ y ∈ d1, y ≠ ',')
    (h2 : ∀ y ∈ d2, y ≠ ',') :
    replaceAll ',' '.' (d1 ++ ',' :: d2) = d1 ++ '.' :: d2 := by
  unfold replaceAll
  rw [List.map_append, List.map_cons, if_pos rfl]
  congr 1
  · refine (List.map_congr_left ?_).trans (List.map_id _)
    intro a ha
    simp [h1 a ha]
  · congr 1
    refine (List.map_congr_left ?_).trans (List.map_id _)
    intro a ha
    simp [h2 a ha]

theorem floatOneTRParts_comma_last {u c : PyStr}
    (hu : ∀ y ∈ u, y.isDigit = true ∨ y = '.') (hdot : '.' ∈ u)
    (hc : ∀ y ∈ c, y.isDigit = true)
    (hne : removeAll '.' u ++ c ≠ []) :
    floatOneTRParts (u ++ ',' :: c)
      = some ⟨false, natOfDigits (removeAll '.' u), natOfDigits c, c.length⟩ := by
  have hu_nc : ∀ y ∈ u, y ≠ ',' := by
    intro y hy
    rcases hu y hy with hd | rfl
    · exact digit_ne hd (by decide)
    · decide
  have hc_nc : ∀ y ∈ c, y ≠ ',' := fun y hy => digit_ne (hc y hy) (by decide)
  have hc_nd : ∀ y ∈ c, y ≠ '.' := fun y hy => digit_ne (hc y hy) (by decide)
  have hulen : u ≠ [] := by
    rintro rfl
    cases hdot
  have hlen : 2 ≤ (u ++ ',' :: c).length := by
    rw [List.length_append, List.length_cons]
    have := List.length_pos.2 hulen
    omega
  have hgt : rfind ',' (u ++ ',' :: c) > rfind '.' (u ++ ',' :: c) := by
    rw [rfind_append_self (fun hm => hc_nc ',' hm rfl) u,
      @rfind_append_not_mem '.' (',' :: c) ?dni u]
    case dni =>
      intro hm
      rcases List.mem_cons.1 hm with he | hm2
      · exact absurd he (by decide)
      · exact hc_nd '.' hm2 rfl
    exact rfind_lt_length '.' u
  unfold floatOneTRParts
  rw [if_neg (not_degenerate_of_two_le hlen)]
  unfold sepNormalize
  rw [if_pos ⟨List.mem_append_right u (List.mem_cons_self ',' c),
      List.mem_append_left _ hdot⟩,
    if_pos hgt, transform_comma_last hu_nc hc_nc hc_nd,
    pyFloatParts_decimal ?digits hc hne]
  case digits =>
    intro y hy
    rcases hu y (List.mem_of_mem_filter hy) with hd | rfl
    · exact hd
    · have hmem := List.of_mem_filter hy
      simp at hmem

theorem floatOneTRParts_dot_last {u c : PyStr}
    (hu : ∀ y ∈ u, y.isDigit = true ∨ y = ',') (hcomma : ',' ∈ u)
    (hc : ∀ y ∈ c, y.isDigit = true)
    (hne : removeAll ',' u ++ c ≠ []) :
    floatOneTRParts (u ++ '.' :: c)
      = some ⟨false, natOfDigits (removeAll ',' u), natOfDigits c, c.length⟩ := by
  have hu_nd : ∀ y ∈ u, y ≠ '.' := by
    intro y hy
    rcases hu y hy with hd | rfl
    · exact digit_ne hd (by decide)
    · decide
  have hc_nc : ∀ y ∈ c, y ≠ ',' := fun y hy => digit_ne (hc y hy) (by decide)
  have hc_nd : ∀ y ∈ c, y ≠ '.' := fun y hy => digit_ne (hc y hy) (by decide)
  have hulen : u ≠ [] := by
    rintro rfl
    cases hcomma
  have hlen : 2 ≤ (u ++ '.' :: c).length := by
    rw [List.length_append, List.length_cons]
    have := List.length_pos.2 hulen
    omega
  have hlt : ¬ (rfind ',' (u ++ '.' :: c) > rfind '.' (u ++ '.' :: c)) := by
    rw [rfind_append_self (fun hm => hc_nd '.' hm rfl) u,
      @rfind_append_not_mem ',' ('.' :: c) ?cni u]
    case cni =>
      intro hm
      rcases List.mem_cons.1 hm with he | hm2
      · exact absurd he (by decide)
      · exact hc_nc ',' hm2 rfl
    have := rfind_lt_length ',' u
    omega
  unfold floatOneTRParts
  rw [if_neg (not_degenerate_of_two_le hlen)]
  unfold sepNormalize
  rw [if_pos ⟨List.mem_append_left _ hcomma,
      List.mem_append_right u (List.mem_cons_self '.' c)⟩,
    if_neg hlt, transform_dot_last hc_nc,
    pyFloatParts_decimal ?digits hc hne]
  case digits =>
    intro y hy
    rcases hu y (List.mem_of_mem_filter hy) with hd | rfl
    · exact hd
    · have hmem := List.of_mem_filter hy
      simp at hmem

theorem floatOneTRParts_only_comma {d1 d2 : PyStr}
    (h1 : ∀ y ∈ d1, y.isDigit = true) (h2 : ∀ y ∈ d2, y.isDigit = true)
    (hne : d1 ++ d2 ≠ []) :
    floatOneTRParts (d1 ++ ',' :: d2)
      = some ⟨false, natOfDigits d1, natOfDigits d2, d2.length⟩ := by
  have h1_nc : ∀ y ∈ d1, y ≠ ',' := fun y hy => digit_ne (h1 y hy) (by decide)
  have h2_nc : ∀ y ∈ d2, y ≠ ',' := fun y hy => digit_ne (h2 y hy) (by decide)
  have hdn : '.' ∉ d1 ++ ',' :: d2 := by
    intro hm
    rcases List.mem_append.1 hm with hm1 | hm2
    · exact digit_ne (h1 '.' hm1) (by decide) rfl
    · rcases List.mem_cons.1 hm2 with he | hm3
      · exact absurd he (by decide)
      · exact digit_ne (h2 '.' hm3) (by decide) rfl
  have hlen : 2 ≤ (d1 ++ ',' :: d2).length := by
    rw [List.length_append, List.length_cons]
    have : d1.length + d2.length ≠ 0 := by
      intro hz
      apply hne
      have h1z : d1 = [] := List.length_eq_zero.1 (by omega)
      have h2z : d2 = [] := List.length_eq_zero.1 (by omega)
      rw [h1z, h2z]
      rfl
    omega
  unfold floatOneTRParts
  rw [if_neg (not_degenerate_of_two_le hlen)]
  unfold sepNormalize
  rw [if_neg (fun h => hdn h.2),
    if_pos ⟨List.mem_append_right d1 (List.mem_cons_self ',' d2), hdn⟩,
    transform_only_comma h1_nc h2_nc,
    pyFloatParts_decimal h1 h2 hne]

/-- C5: the locale-aware numeric parser maps "1.234,56", "1,234.56" and
"123,45" to 1234.56, 1234.56 and 123.45; whenever both a comma and a period
occur the rightmost one acts as the decimal separator (with the other removed
as a thousands mark); a lone comma acts as the decimal separator; and the
degenerate strings "", "-", ".", "," parse to missing, never to zero and
never with an error. -/
theorem C5_locale_numeric_parsing :
    (parseNumTR "1.234,56" = some (123456 / 100 : ℚ)
      ∧ parseNumTR "1,234.56" = some (123456 / 100 : ℚ)
      ∧ parseNumTR "123,45" = some (12345 / 100 : ℚ))
    ∧ (∀ u c : PyStr, (∀ y ∈ u, y.isDigit = true ∨ y = '.') → '.' ∈ u →
        (∀ y ∈ c, y.isDigit = true) → removeAll '.' u ++ c ≠ [] →
        floatOneTR (u ++ ',' :: c)
          = some ((natOfDigits (removeAll '.' u) : ℚ)
              + (natOfDigits c : ℚ) / (10 : ℚ) ^ c.length))
    ∧ (∀ u c : PyStr, (∀ y ∈ u, y.isDigit = true ∨ y = ',') → ',' ∈ u →
        (∀ y ∈ c, y.isDigit = true) → removeAll ',' u ++ c ≠ [] →
        floatOneTR (u ++ '.' :: c)
          = some ((natOfDigits (removeAll ',' u) : ℚ)
              + (natOfDigits c : ℚ) / (10 : ℚ) ^ c.length))
    ∧ (∀ d1 d2 : PyStr, (∀ y ∈ d1, y.isDigit = true) →
        (∀ y ∈ d2, y.isDigit = true) → d1 ++ d2 ≠ [] →
        floatOneTR (d1 ++ ',' :: d2)
          = some ((natOfDigits d1 : ℚ)
              + (natOfDigits d2 : ℚ) / (10 : ℚ) ^ d2.length))
    ∧ (parseNumTR "" = none ∧ parseNumTR "-" = none
        ∧ parseNumTR "." = none ∧ parseNumTR "," = none) := by
  refine ⟨⟨?_, ?_, ?_⟩, ?_, ?_, ?_, ?_, ?_, ?_, ?_⟩
  · have h : floatOneTRParts (cleanNumeric "1.234,56".toList)
        = some ⟨false, 1234, 56, 2⟩ := by decide
    unfold parseNumTR floatOneTR
    rw [h]
    simp [FloatParts.val]
    norm_num
  · have h : floatOneTRParts (cleanNumeric "1,234.56".toList)
        = some ⟨false, 1234, 56, 2⟩ := by decide
    unfold parseNumTR floatOneTR
    rw [h]
    simp [FloatParts.val]
    norm_num
  · have h : floatOneTRParts (cleanNumeric "123,45".toList)
        = some ⟨false, 123, 45, 2⟩ := by decide
    unfold parseNumTR floatOneTR
    rw [h]
    simp [FloatParts.val]
    norm_num
  · intro u c hu hdot hc hne
    unfold floatOneTR
    rw [floatOneTRParts_comma_last hu hdot hc hne]
    simp [FloatParts.val]
  · intro u c hu hcomma hc hne
    unfold floatOneTR
    rw [floatOneTRParts_dot_last hu hcomma hc hne]
    simp [FloatParts.val]
  · intro d1 d2 h1 h2 hne
    unfold floatOneTR
    rw [floatOneTRParts_only_comma h1 h2 hne]
    simp [FloatParts.val]
  · have h : floatOneTRParts (cleanNumeric "".toList) = none := by decide
    unfold parseNumTR floatOneTR
    rw [h]
    rfl
  · have h : floatOneTRParts (cleanNumeric "-".toList) = none := by decide
    unfold parseNumTR floatOneTR
    rw [h]
    rfl
  · have h : floatOneTRParts (cleanNumeric ".".toList) = none := by decide
    unfold parseNumTR floatOneTR
    rw [h]
    rfl
  · have h : floatOneTRParts (cleanNumeric ",".toList) = none := by decide
    unfold parseNumTR floatOneTR
    rw [h]
    rfl

theorem C5_witness :
    floatOneTR (['1', '.', '2'] ++ ',' :: ['5'])
      = some ((natOfDigits (removeAll '.' ['1', '.', '2']) : ℚ)
          + (natOfDigits ['5'] : ℚ) / (10 : ℚ) ^ (['5'] : PyStr).length)
    ∧ floatOneTR (['1', ',', '2'] ++ '.' :: ['5'])
      = some ((natOfDigits (removeAll ',' ['1', ',', '2']) : ℚ)
          + (natOfDigits ['5'] : ℚ) / (10 : ℚ) ^ (['5'] : PyStr).length)
    ∧ floatOneTR (['7'] ++ ',' :: ['5'])
      = some ((natOfDigits ['7'] : ℚ)
          + (natOfDigits ['5'] : ℚ) / (10 : ℚ) ^ (['5'] : PyStr).length) :=
  ⟨C5_locale_numeric_parsing.2.1 ['1', '.', '2'] ['5']
      (by decide) (by decide) (by decide) (by decide),
    C5_locale_numeric_parsing.2.2.1 ['1', ',', '2'] ['5']
      (by decide) (by decide) (by decide) (by decide),
    C5_locale_numeric_parsing.2.2.2.1 ['7'] ['5']
      (by decide) (by decide) (by decide)⟩

/-! ### Normalization invariance under formatting (C7) -/

theorem pyIsSpace_sp : pyIsSpace ' ' = true := by decide

theorem collapseWs_single_ws {a : Char} (ha : pyIsSpace a = true) :
    collapseWs [a] = [' '] := by
  rw [collapseWs.eq_def]
  dsimp only
  rw [if_pos ha]

theorem collapseWs_two_ws {a d : Char} (ha : pyIsSpace a = true)
    (hd : pyIsSpace d = true) (r : PyStr) :
    collapseWs (a :: d :: r) = collapseWs (d :: r) := by
  conv_lhs => rw [collapseWs.eq_def]
  dsimp only
  rw [if_pos ha, if_pos hd]

theorem collapseWs_ws_nonws {a d : Char} (ha : pyIsSpace a = true)
    (hd : pyIsSpace d = false) (r : PyStr) :
    collapseWs (a :: d :: r) = ' ' :: collapseWs (d :: r) := by
  conv_lhs => rw [collapseWs.eq_def]
  dsimp only
  rw [if_pos ha, if_neg (by simp [hd])]

theorem collapseWs_cons_nonws {c : Char} (h : pyIsSpace c = false) (v : PyStr) :
    collapseWs (c :: v) = c :: collapseWs v := by
  conv_lhs => rw [collapseWs.eq_def]
  dsimp only
  rw [if_neg (by simp [h])]

theorem collapseWs_all_ws_cons (u r : PyStr) :
    u ≠ [] → (∀ c ∈ u, pyIsSpace c = true) →
    collapseWs (u ++ r) = collapseWs (' ' :: r) := by
  induction u with
  | nil =>
    intro hu _
    exact absurd rfl hu
  | cons a u2 ih =>
    intro _ hau
    have ha : pyIsSpace a = true := hau a (List.mem_cons_self a u2)
    cases u2 with
    | nil =>
      cases r with
      | nil =>
        simp only [List.append_nil]
        rw [collapseWs_single_ws ha, collapseWs_single_ws pyIsSpace_sp]
      | cons d r2 =>
        by_cases hd : pyIsSpace d = true
        · rw [List.cons_append, List.nil_append, collapseWs_two_ws ha hd,
            collapseWs_two_ws pyIsSpace_sp hd]
        · have hd2 : pyIsSpace d = false := by
            cases hx : pyIsSpace d
            · rfl
            · exact absurd hx hd
          rw [List.cons_append, List.nil_append, collapseWs_ws_nonws ha hd2,
            collapseWs_ws_nonws pyIsSpace_sp hd2]
    | cons b u3 =>
      have hb : pyIsSpace b = true := hau b (by simp)
      have ih2 := ih (by simp) (fun c hc => hau c (List.mem_cons_of_mem a hc))
      rw [List.cons_append, List.cons_append, collapseWs_two_ws ha hb,
        ← List.cons_append]
      exact ih2

theorem ws_false {b : Bool} (h : ¬ b = true) : b = false := by
  cases b with
  | false => rfl
  | true => exact absurd rfl h

theorem collapseWs_cons_congr2 {c d e : Char} {X Y : PyStr}
    (hde : pyIsSpace d = pyIsSpace e)
    (h : collapseWs (d :: X) = collapseWs (e :: Y)) :
    collapseWs (c :: d :: X) = collapseWs (c :: e :: Y) := by
  by_cases hc : pyIsSpace c = true
  · by_cases hd : pyIsSpace d = true
    · have he : pyIsSpace e = true := hde ▸ hd
      rw [collapseWs_two_ws hc hd, collapseWs_two_ws hc he, h]
    · have hd2 := ws_false hd
      have he2 : pyIsSpace e = false := hde ▸ hd2
      rw [collapseWs_ws_nonws hc hd2, collapseWs_ws_nonws hc he2, h]
  · have hc2 := ws_false hc
    rw [collapseWs_cons_nonws hc2, collapseWs_cons_nonws hc2, h]

theorem collapseWs_run (l : PyStr) :
    ∀ u r : PyStr, u ≠ [] → (∀ c ∈ u, pyIsSpace c = true) →
    collapseWs (l ++ u ++ r) = collapseWs (l ++ ' ' :: r) := by
  induction l with
  | nil =>
    intro u r hu hau
    simp only [List.nil_append]
    exact collapseWs_all_ws_cons u r hu hau
  | cons c l2 ih =>
    intro u r hu hau
    simp only [List.cons_append]
    cases l2 with
    | nil =>
      cases u with
      | nil => exact absurd rfl hu
      | cons a u2 =>
        have ha : pyIsSpace a = true := hau a (by simp)
        simp only [List.nil_append, List.cons_append]
        refine collapseWs_cons_congr2 (by rw [ha, pyIsSpace_sp]) ?_
        have h0 := collapseWs_all_ws_cons (a :: u2) r (by simp) hau
        simpa using h0
    | cons d l3 =>
      simp only [List.cons_append]
      refine collapseWs_cons_congr2 rfl ?_
      have h0 := ih u r hu hau
      simpa using h0

theorem collapseWs_append_nonws_head (Z : PyStr)
    (hZ : Z = [] ∨ ∃ d Z2, Z = d :: Z2 ∧ pyIsSpace d = false) :
    ∀ X : PyStr, collapseWs (X ++ Z) = collapseWs X ++ collapseWs Z := by
  intro X
  induction X with
  | nil =>
    simp only [List.nil_append]
    rfl
  | cons c X2 ih =>
    cases X2 with
    | nil =>
      by_cases hc : pyIsSpace c = true
      · rcases hZ with rfl | ⟨d, Z2, rfl, hd⟩
        · simp only [List.append_nil, collapseWs_single_ws hc]
          rfl
        · simp only [List.singleton_append]
          rw [collapseWs_ws_nonws hc hd, collapseWs_single_ws hc,
            List.singleton_append]
      · have hc2 := ws_false hc
        simp only [List.singleton_append]
        rw [collapseWs_cons_nonws hc2, collapseWs_cons_nonws hc2]
        rfl
    | cons e X3 =>
      have ih2 : collapseWs ((e :: X3) ++ Z) = collapseWs (e :: X3) ++ collapseWs Z := ih
      simp only [List.cons_append] at ih2 ⊢
      by_cases hc : pyIsSpace c = true
      · by_cases he : pyIsSpace e = true
        · rw [collapseWs_two_ws hc he, collapseWs_two_ws hc he, ih2]
        · have he2 := ws_false he
          rw [collapseWs_ws_nonws hc he2, collapseWs_ws_nonws hc he2, ih2]
          rfl
      · have hc2 := ws_false hc
        rw [collapseWs_cons_nonws hc2, collapseWs_cons_nonws hc2, ih2]
        rfl

theorem collapseWs_append_nonws_last (Z : PyStr) :
    ∀ (X : PyStr) (d : Char), X.getLast? = some d → pyIsSpace d = false →
    collapseWs (X ++ Z) = collapseWs X ++ collapseWs Z := by
  intro X
  induction X with
  | nil =>
    intro d hlast _
    exact absurd hlast (by simp)
  | cons c X2 ih =>
    intro d hlast hd
    cases X2 with
    | nil =>
      have hcd : c = d := by
        have : some c = some d := by simpa [List.getLast?] using hlast
        exact Option.some.inj this
      subst hcd
      simp only [List.singleton_append]
      rw [collapseWs_cons_nonws hd, collapseWs_cons_nonws hd]
      rfl
    | cons e X3 =>
      have hlast2 : (e :: X3).getLast? = some d := by
        rw [← List.getLast?_cons_cons]
        exact hlast
      have ih2 := ih d hlast2 hd
      simp only [List.cons_append] at ih2 ⊢
      by_cases hc : pyIsSpace c = true
      · by_cases he : pyIsSpace e = true
        · rw [collapseWs_two_ws hc he, collapseWs_two_ws hc he, ih2]
        · have he2 := ws_false he
          rw [collapseWs_ws_nonws hc he2, collapseWs_ws_nonws hc he2, ih2]
          rfl
      · have hc2 := ws_false hc
        rw [collapseWs_cons_nonws hc2, collapseWs_cons_nonws hc2, ih2]
        rfl

theorem parenWsAux_eq (pc : Char) (s : Bool) (c : Char) (rest : PyStr) :
    parenWsAux pc s (c :: rest)
      = if s ∧ pyIsSpace c then parenWsAux pc true rest
        else if c = pc then pc :: parenWsAux pc true rest
        else c :: parenWsAux pc false rest := by
  rw [parenWsAux.eq_def]

theorem parenSt_cons (pc : Char) (s : Bool) (c : Char) (rest : PyStr) :
    parenSt pc s (c :: rest) = parenSt pc (parenStep pc s c) rest := rfl

theorem parenWsAux_append (pc : Char) :
    ∀ (X : PyStr) (s : Bool) (Y : PyStr),
    parenWsAux pc s (X ++ Y)
      = parenWsAux pc s X ++ parenWsAux pc (parenSt pc s X) Y := by
  intro X
  induction X with
  | nil =>
    intro s Y
    rfl
  | cons c X2 ih =>
    intro s Y
    rw [List.cons_append, parenWsAux_eq, parenWsAux_eq, parenSt_cons]
    by_cases h1 : (s = true ∧ pyIsSpace c = true)
    · rw [if_pos h1, if_pos h1, ih]
      have hst : parenStep pc s c = true := by
        unfold parenStep
        rw [if_pos h1]
      rw [hst]
    · rw [if_neg h1, if_neg h1]
      by_cases h2 : c = pc
      · rw [if_pos h2, if_pos h2, ih]
        have hst : parenStep pc s c = true := by
          unfold parenStep
          rw [if_neg h1, if_pos h2]
        rw [hst, List.cons_append]
      · rw [if_neg h2, if_neg h2, ih]
        have hst : parenStep pc s c = false := by
          unfold parenStep
          rw [if_neg h1, if_neg h2]
        rw [hst, List.cons_append]

theorem parenSt_append (pc : Char) :
    ∀ (X : PyStr) (s : Bool) (Y : PyStr),
    parenSt pc s (X ++ Y) = parenSt pc (parenSt pc s X) Y := by
  intro X
  induction X with
  | nil =>
    intro s Y
    rfl
  | cons c X2 ih =>
    intro s Y
    rw [List.cons_append, parenSt_cons, parenSt_cons, ih]

theorem parenSt_concat_pc (pc : Char) (s : Bool) (X : PyStr) :
    parenSt pc s (X ++ [pc]) = true := by
  rw [parenSt_append]
  show parenSt pc (parenStep pc (parenSt pc s X) pc) [] = true
  show parenStep pc (parenSt pc s X) pc = true
  unfold parenStep
  split
  · rfl
  · rw [if_pos rfl]

theorem parenWsAux_true_ws (pc : Char) :
    ∀ (u Y : PyStr), (∀ c ∈ u, pyIsSpace c = true) →
    parenWsAux pc true (u ++ Y) = parenWsAux pc true Y := by
  intro u
  induction u with
  | nil =>
    intro Y _
    rfl
  | cons a u2 ih =>
    intro Y hau
    rw [List.cons_append, parenWsAux_eq,
      if_pos ⟨rfl, hau a (by simp)⟩]
    exact ih Y (fun c hc => hau c (List.mem_cons_of_mem a hc))

theorem pyStrip_cons_ws {w : Char} (hw : pyIsSpace w = true) (Z : PyStr) :
    pyStrip (w :: Z) = pyStrip Z := by
  unfold pyStrip
  rw [List.dropWhile_cons, if_pos (by rw [hw])]

theorem dropWhile_concat_char (p : Char → Bool) (w : Char) :
    ∀ Z : PyStr, List.dropWhile p (Z ++ [w])
      = if List.dropWhile p Z = [] then List.dropWhile p [w]
        else List.dropWhile p Z ++ [w] := by
  intro Z
  induction Z with
  | nil => simp
  | cons c Z2 ih =>
    rw [List.cons_append, List.dropWhile_cons, List.dropWhile_cons]
    by_cases hc : p c = true
    · rw [if_pos hc, if_pos hc, ih]
    · rw [if_neg hc, if_neg hc, if_neg (List.cons_ne_nil c Z2), List.cons_append]

theorem pyStrip_concat_ws {w : Char} (hw : pyIsSpace w = true) (Z : PyStr) :
    pyStrip (Z ++ [w]) = pyStrip Z := by
  unfold pyStrip
  rw [dropWhile_concat_char]
  by_cases h : List.dropWhile pyIsSpace Z = []
  · rw [if_pos h, h, List.dropWhile_cons, if_pos (by rw [hw])]
    rfl
  · rw [if_neg h, List.reverse_append]
    have h2 : ([w] : PyStr).reverse ++ (List.dropWhile pyIsSpace Z).reverse
        = w :: (List.dropWhile pyIsSpace Z).reverse := by simp
    rw [h2, List.dropWhile_cons, if_pos (by rw [hw])]

theorem normalizeCol_eq_normTail (v : PyStr) :
    normalizeCol v = normTail (replaceAll ' ' ' ' v) := rfl

theorem replaceAll_append (a b : Char) (x y : PyStr) :
    replaceAll a b (x ++ y) = replaceAll a b x ++ replaceAll a b y := by
  simp [replaceAll]

theorem replaceAll_nbsp_open (t : PyStr) :
    replaceAll ' ' ' ' ('(' :: t) = '(' :: replaceAll ' ' ' ' t := rfl

theorem replaceAll_nbsp_close (t : PyStr) :
    replaceAll ' ' ' ' (')' :: t) = ')' :: replaceAll ' ' ' ' t := rfl

theorem replaceAll_ws_all {a : Char} {u : PyStr}
    (hau : ∀ c ∈ u, pyIsSpace c = true) :
    ∀ c ∈ replaceAll a ' ' u, pyIsSpace c = true := by
  intro c hc
  obtain ⟨x, hx, rfl⟩ := List.mem_map.1 hc
  by_cases hxa : x = a
  · rw [if_pos hxa]
    exact pyIsSpace_sp
  · rw [if_neg hxa]
    exact hau x hx

theorem replaceAll_ne_nil {a b : Char} {u : PyStr} (hu : u ≠ []) :
    replaceAll a b u ≠ [] := by
  cases u with
  | nil => exact absurd rfl hu
  | cons x xs =>
    intro h
    exact absurd h (by simp [replaceAll])

theorem normTail_ws_run (l u w r : PyStr) (hu : u ≠ [])
    (hau : ∀ c ∈ u, pyIsSpace c = true) (hw : w ≠ [])
    (haw : ∀ c ∈ w, pyIsSpace c = true) :
    normTail (l ++ u ++ r) = normTail (l ++ w ++ r) := by
  unfold normTail
  rw [collapseWs_run l u r hu hau, collapseWs_run l w r hw haw]

theorem normTail_lead_ws (u v : PyStr) (hu : u ≠ [])
    (hau : ∀ c ∈ u, pyIsSpace c = true) :
    normTail (u ++ v) = normTail v := by
  unfold normTail
  rw [collapseWs_all_ws_cons u v hu hau]
  cases v with
  | nil => decide
  | cons d v2 =>
    by_cases hd : pyIsSpace d = true
    · rw [collapseWs_two_ws pyIsSpace_sp hd]
    · have hd2 := ws_false hd
      rw [collapseWs_ws_nonws pyIsSpace_sp hd2]
      generalize collapseWs (d :: v2) = X
      have hda : dropAfterParen (' ' :: X) = ' ' :: dropAfterParen X := by
        unfold dropAfterParen
        rw [parenWsAux_eq, if_neg (by simp), if_neg (by decide)]
      rw [hda]
      generalize dropAfterParen X = Y
      unfold dropBeforeParen
      have hrev : (' ' :: Y).reverse = Y.reverse ++ [' '] := by simp
      rw [hrev, parenWsAux_append]
      by_cases hs : parenSt ')' false Y.reverse = true
      · rw [hs, show parenWsAux ')' true [' '] = [] from by decide,
          List.append_nil]
      · have hs2 := ws_false hs
        rw [hs2, show parenWsAux ')' false [' '] = [' '] from by decide,
          List.reverse_append,
          show ([' '] : PyStr).reverse = [' '] from by decide,
          List.singleton_append, pyStrip_cons_ws pyIsSpace_sp]

theorem normTail_trail_ws (u v : PyStr) (hu : u ≠ [])
    (hau : ∀ c ∈ u, pyIsSpace c = true) :
    normTail (v ++ u) = normTail v := by
  unfold normTail
  have hc1 : collapseWs (v ++ u) = collapseWs (v ++ [' ']) := by
    have h0 := collapseWs_run v u [] hu hau
    simpa using h0
  rw [hc1]
  rcases List.eq_nil_or_concat v with rfl | ⟨v0, a, rfl⟩
  · simp only [List.nil_append]
    decide
  · simp only [List.concat_eq_append]
    by_cases ha : pyIsSpace a = true
    · have e1 : collapseWs ((v0 ++ [a]) ++ [' ']) = collapseWs (v0 ++ [' ']) := by
        have h0 := collapseWs_run v0 [a, ' '] [] (by simp)
          (by
            intro c hc
            simp only [List.mem_cons, List.not_mem_nil, or_false] at hc
            rcases hc with rfl | rfl
            · exact ha
            · exact pyIsSpace_sp)
        simpa [List.append_assoc] using h0
      have e2 : collapseWs (v0 ++ [a]) = collapseWs (v0 ++ [' ']) := by
        have h0 := collapseWs_run v0 [a] [] (by simp)
          (by
            intro c hc
            simp only [List.mem_singleton] at hc
            subst hc
            exact ha)
        simpa using h0
      rw [e1, e2]
    · have ha2 := ws_false ha
      have hlast : (v0 ++ [a]).getLast? = some a := by simp
      have e1 : collapseWs ((v0 ++ [a]) ++ [' '])
          = collapseWs (v0 ++ [a]) ++ [' '] := by
        rw [collapseWs_append_nonws_last [' '] (v0 ++ [a]) a hlast ha2,
          collapseWs_single_ws pyIsSpace_sp]
      rw [e1]
      generalize collapseWs (v0 ++ [a]) = X
      unfold dropAfterParen
      rw [parenWsAux_append]
      by_cases hs : parenSt '(' false X = true
      · rw [hs, show parenWsAux '(' true [' '] = [] from by decide,
          List.append_nil]
      · have hs2 := ws_false hs
        rw [hs2, show parenWsAux '(' false [' '] = [' '] from by decide]
        generalize parenWsAux '(' false X = Y
        unfold dropBeforeParen
        rw [List.reverse_append,
          show ([' '] : PyStr).reverse = [' '] from by decide,
          List.singleton_append, parenWsAux_eq, if_neg (by simp),
          if_neg (by decide), List.reverse_cons, pyStrip_concat_ws pyIsSpace_sp]

theorem normTail_paren_open (l u r : PyStr) (hu : u ≠ [])
    (hau : ∀ c ∈ u, pyIsSpace c = true) :
    normTail (l ++ '(' :: (u ++ r)) = normTail (l ++ '(' :: r) := by
  unfold normTail
  have hop : pyIsSpace '(' = false := by decide
  have e1 : collapseWs (l ++ '(' :: (u ++ r))
      = collapseWs l ++ '(' :: collapseWs (u ++ r) := by
    rw [collapseWs_append_nonws_head ('(' :: (u ++ r))
        (Or.inr ⟨'(', u ++ r, rfl, hop⟩) l,
      collapseWs_cons_nonws hop]
  have e2 : collapseWs (l ++ '(' :: r)
      = collapseWs l ++ '(' :: collapseWs r := by
    rw [collapseWs_append_nonws_head ('(' :: r) (Or.inr ⟨'(', r, rfl, hop⟩) l,
      collapseWs_cons_nonws hop]
  rw [e1, e2]
  have key : ∀ T1 T2 : PyStr, parenWsAux '(' true T1 = parenWsAux '(' true T2 →
      pyStrip (dropBeforeParen (dropAfterParen (collapseWs l ++ '(' :: T1)))
        = pyStrip (dropBeforeParen (dropAfterParen (collapseWs l ++ '(' :: T2))) := by
    intro T1 T2 hT
    unfold dropAfterParen
    have hsplit : ∀ T : PyStr,
        parenWsAux '(' false ((collapseWs l ++ ['(']) ++ T)
          = parenWsAux '(' false (collapseWs l ++ ['(']) ++ parenWsAux '(' true T := by
      intro T
      rw [parenWsAux_append, parenSt_concat_pc]
    rw [show collapseWs l ++ '(' :: T1 = (collapseWs l ++ ['(']) ++ T1 from by simp,
      show collapseWs l ++ '(' :: T2 = (collapseWs l ++ ['(']) ++ T2 from by simp,
      hsplit T1, hsplit T2, hT]
  apply key
  rw [collapseWs_all_ws_cons u r hu hau]
  cases r with
  | nil => decide
  | cons d r2 =>
    by_cases hd : pyIsSpace d = true
    · rw [collapseWs_two_ws pyIsSpace_sp hd]
    · have hd2 := ws_false hd
      rw [collapseWs_ws_nonws pyIsSpace_sp hd2, parenWsAux_eq,
        if_pos ⟨rfl, pyIsSpace_sp⟩]

theorem normTail_close_key (CL Q : PyStr) :
    pyStrip (dropBeforeParen (dropAfterParen ((CL ++ [' ']) ++ ')' :: Q)))
      = pyStrip (dropBeforeParen (dropAfterParen (CL ++ ')' :: Q))) := by
  unfold dropAfterParen
  rw [parenWsAux_append '(' (CL ++ [' ']) false (')' :: Q),
    parenWsAux_append '(' CL false (')' :: Q),
    parenWsAux_append '(' CL false [' '], parenSt_append '(' CL false [' ']]
  by_cases hs : parenSt '(' false CL = true
  · rw [hs, show parenWsAux '(' true [' '] = [] from by decide,
      show parenSt '(' true [' '] = true from by decide, List.append_nil]
  · have hs2 := ws_false hs
    rw [hs2, show parenWsAux '(' false [' '] = [' '] from by decide,
      show parenSt '(' false [' '] = false from by decide,
      parenWsAux_eq, if_neg (by simp), if_neg (by decide)]
    generalize parenWsAux '(' false CL = P
    generalize parenWsAux '(' false Q = Q2
    unfold dropBeforeParen
    have hsplit2 : ∀ T : PyStr,
        parenWsAux ')' false ((Q2.reverse ++ [')']) ++ T)
          = parenWsAux ')' false (Q2.reverse ++ [')']) ++ parenWsAux ')' true T := by
      intro T
      rw [parenWsAux_append, parenSt_concat_pc]
    rw [show ((P ++ [' ']) ++ ')' :: Q2).reverse
          = (Q2.reverse ++ [')']) ++ ' ' :: P.reverse from by simp,
      show (P ++ ')' :: Q2).reverse
          = (Q2.reverse ++ [')']) ++ P.reverse from by simp,
      hsplit2 (' ' :: P.reverse), hsplit2 P.reverse,
      parenWsAux_eq, if_pos ⟨rfl, pyIsSpace_sp⟩]

theorem normTail_paren_close (l u r : PyStr) (hu : u ≠ [])
    (hau : ∀ c ∈ u, pyIsSpace c = true) :
    normTail (l ++ u ++ ')' :: r) = normTail (l ++ ')' :: r) := by
  unfold normTail
  have hcp : pyIsSpace ')' = false := by decide
  rw [collapseWs_run l u (')' :: r) hu hau]
  have e1 : collapseWs (l ++ ' ' :: ')' :: r)
      = collapseWs (l ++ [' ']) ++ ')' :: collapseWs r := by
    rw [show l ++ ' ' :: ')' :: r = (l ++ [' ']) ++ ')' :: r from by simp,
      collapseWs_append_nonws_head (')' :: r) (Or.inr ⟨')', r, rfl, hcp⟩)
        (l ++ [' ']),
      collapseWs_cons_nonws hcp]
  have e2 : collapseWs (l ++ ')' :: r) = collapseWs l ++ ')' :: collapseWs r := by
    rw [collapseWs_append_nonws_head (')' :: r) (Or.inr ⟨')', r, rfl, hcp⟩) l,
      collapseWs_cons_nonws hcp]
  rw [e1, e2]
  rcases List.eq_nil_or_concat l with rfl | ⟨l0, a, rfl⟩
  · simp only [List.nil_append]
    rw [show collapseWs ([' '] : PyStr) = [' '] from by decide,
      show collapseWs ([] : PyStr) = [] from rfl]
    have h0 := normTail_close_key [] (collapseWs r)
    simpa using h0
  · simp only [List.concat_eq_append]
    by_cases ha : pyIsSpace a = true
    · have e3 : collapseWs ((l0 ++ [a]) ++ [' ']) = collapseWs (l0 ++ [a]) := by
        have h1 := collapseWs_run l0 [a, ' '] [] (by simp)
          (by
            intro c hc
            simp only [List.mem_cons, List.not_mem_nil, or_false] at hc
            rcases hc with rfl | rfl
            · exact ha
            · exact pyIsSpace_sp)
        have h2 := collapseWs_run l0 [a] [] (by simp)
          (by
            intro c hc
            simp only [List.mem_singleton] at hc
            subst hc
            exact ha)
        have h1b : collapseWs ((l0 ++ [a]) ++ [' ']) = collapseWs (l0 ++ [' ']) := by
          simpa [List.append_assoc] using h1
        have h2b : collapseWs (l0 ++ [a]) = collapseWs (l0 ++ [' ']) := by
          simpa using h2
        rw [h1b, h2b]
      rw [e3]
    · have ha2 := ws_false ha
      have hlast : (l0 ++ [a]).getLast? = some a := by simp
      have e3 : collapseWs ((l0 ++ [a]) ++ [' '])
          = collapseWs (l0 ++ [a]) ++ [' '] := by
        rw [collapseWs_append_nonws_last [' '] (l0 ++ [a]) a hlast ha2,
          collapseWs_single_ws pyIsSpace_sp]
      rw [e3]
      exact normTail_close_key (collapseWs (l0 ++ [a])) (collapseWs r)

theorem normalizeCol_fmtStep {a b : PyStr} (h : FmtStep a b) :
    normalizeCol a = normalizeCol b := by
  cases h with
  | wsRun l u w r hu hau hw haw =>
    rw [normalizeCol_eq_normTail, normalizeCol_eq_normTail,
      replaceAll_append, replaceAll_append, replaceAll_append, replaceAll_append]
    exact normTail_ws_run _ _ _ _ (replaceAll_ne_nil hu) (replaceAll_ws_all hau)
      (replaceAll_ne_nil hw) (replaceAll_ws_all haw)
  | parenOpen l u r hu hau =>
    rw [normalizeCol_eq_normTail, normalizeCol_eq_normTail,
      replaceAll_append, replaceAll_append,
      replaceAll_nbsp_open, replaceAll_nbsp_open, replaceAll_append]
    exact normTail_paren_open _ _ _ (replaceAll_ne_nil hu) (replaceAll_ws_all hau)
  | parenClose l u r hu hau =>
    rw [normalizeCol_eq_normTail, normalizeCol_eq_normTail,
      replaceAll_append, replaceAll_append, replaceAll_append,
      replaceAll_nbsp_close]
    exact normTail_paren_close _ _ _ (replaceAll_ne_nil hu) (replaceAll_ws_all hau)
  | leadWs u v hu hau =>
    rw [normalizeCol_eq_normTail, normalizeCol_eq_normTail, replaceAll_append]
    exact normTail_lead_ws _ _ (replaceAll_ne_nil hu) (replaceAll_ws_all hau)
  | trailWs u v hu hau =>
    rw [normalizeCol_eq_normTail, normalizeCol_eq_normTail, replaceAll_append]
    exact normTail_trail_ws _ _ (replaceAll_ne_nil hu) (replaceAll_ws_all hau)

/-- C7: column-name normalization maps "AVWAP ( TRY )", "AVWAP (TRY)" and the
non-breaking-space variant to the identical string, and in general any two
column names that differ only by the formatting freedoms (non-breaking vs
regular spaces, runs of whitespace, spaces just inside parentheses, leading or
trailing whitespace — the closure `FmtEquiv` of those edits) normalize to the
same string. -/
theorem C7_normalization_formatting_invariant :
    (normalizeColStr "AVWAP ( TRY )" = normalizeColStr "AVWAP (TRY)"
      ∧ normalizeColStr "AVWAP (TRY)" = normalizeColStr "AVWAP (TRY)")
    ∧ ∀ a b : PyStr, FmtEquiv a b → normalizeCol a = normalizeCol b := by
  refine ⟨⟨by decide, by decide⟩, ?_⟩
  intro a b h
  induction h with
  | refl v => rfl
  | symm _ ih => exact ih.symm
  | trans _ _ ih1 ih2 => exact ih1.trans ih2
  | step hs => exact normalizeCol_fmtStep hs

theorem C7_witness :
    normalizeCol ['(', ' ', 'T'] = normalizeCol ['(', 'T'] :=
  C7_normalization_formatting_invariant.2 ['(', ' ', 'T'] ['(', 'T']
    (FmtEquiv.step (FmtStep.parenOpen [] [' '] ['T'] (by decide) (by decide)))

end Hocalar
